import Mathlib

/-!
# Verification of the ReDocs import/transformation pipeline

A shallow embedding, in Lean 4, of the backend parsing and transformation
functions of the ReDocs plugin (packages/backend/src): file-type detection,
Postman/environment parsing, authentication application, request-spec
building, session naming, and OpenAPI schema example generation.

Strings are modelled as `List Char`.  JavaScript objects parsed from JSON
are modelled by the inductive `Json` below; JS truthiness, property access
and string coercion are modelled explicitly.  Functions that can only fail
by throwing are modelled with `Option`/error constructors.  Sources of
nondeterminism in the original code (`Date.now()`, `Math.random()`) are
modelled by leaving the corresponding field unspecified (`Option`).
-/

/-- JS truthiness of an optional string value: `undefined` and `""` are falsy. -/
def jsTruthyS (o : Option (List Char)) : Bool :=
  match o with
  | Option.none => false
  | Option.some s => s ≠ []

/-- Uppercase a string (models `String.prototype.toUpperCase` on ASCII data). -/
def toUpperStr (s : List Char) : List Char := s.map Char.toUpper

/-- Lowercase a string (models `String.prototype.toLowerCase` on ASCII data). -/
def toLowerStr (s : List Char) : List Char := s.map Char.toLower

/-- `needle` occurs as a contiguous substring of `hay`
(models `String.prototype.includes`). -/
def containsSub (hay needle : List Char) : Bool :=
  hay.tails.any (fun t => needle.isPrefixOf t)

/-- Header map of a request: JS object modelled as an ordered association
list with unique keys (insertion order, as produced by repeated
`headers[key] = value` assignments). -/
abbrev Headers := List (List Char × List Char)

/-- `delete headers[k]` on a JS object: remove the property named `k`
(exact, case-sensitive key match). -/
def hdel (k : List Char) (hs : Headers) : Headers :=
  hs.filter (fun p => p.1 ≠ k)

/-- `headers[k] = v` on a JS object: overwrite in place if the key exists,
append otherwise. -/
def hset (k v : List Char) (hs : Headers) : Headers :=
  if hs.any (fun p => p.1 = k) then
    hs.map (fun p => if p.1 = k then (k, v) else p)
  else hs ++ [(k, v)]

/-- Property lookup on a JS object (first entry with the given key). -/
def hget (k : List Char) (hs : Headers) : Option (List Char) :=
  (hs.find? (fun p => p.1 = k)).map Prod.snd

/-- The auth type union `'none' | 'apikey' | 'bearer' | 'basic' | 'custom'`
from `AuthConfig` in replay/sessionCreator.ts. -/
inductive AuthType where
  | none | apikey | bearer | basic | custom
  deriving DecidableEq, Repr

/-- `AuthConfig` from replay/sessionCreator.ts: a type tag plus optional
string fields (all fields beyond `type` are optional in the source). -/
structure AuthConfig where
  type : AuthType
  key : Option (List Char) := Option.none
  value : Option (List Char) := Option.none
  token : Option (List Char) := Option.none
  username : Option (List Char) := Option.none
  password : Option (List Char) := Option.none
  header : Option (List Char) := Option.none
  hostname : Option (List Char) := Option.none
  deriving DecidableEq, Repr

/-- `charCodeAt` of an ASCII/BMP character. -/
def charCode (c : Char) : Nat := c.toNat

/-- The base64 alphabet used by the `btoa` fallback in
replay/sessionCreator.ts. -/
def btoaChars : List Char :=
  "ABCDEFGHIJKLMNOPQRSTUVWXYZabcdefghijklmnopqrstuvwxyz0123456789+/".data

/-- One step of the manual base64 loop in the source `btoa` fallback:
consume up to three chars, emit four output chars.  `i` tracks how many
input positions were consumed before this step, `len` the total length;
the source emits `'='` padding based on `i - 2 < len` / `i - 1 < len`
comparisons (JS number comparisons, faithfully including their behaviour
on short tails). -/
def btoaStep (a b c : Nat) (bUsed cUsed : Bool) : List Char :=
  let bitmap := (a <<< 16) ||| (b <<< 8) ||| c
  [btoaChars.getD ((bitmap >>> 18) &&& 63) 'A',
   btoaChars.getD ((bitmap >>> 12) &&& 63) 'A',
   if bUsed then btoaChars.getD ((bitmap >>> 6) &&& 63) 'A' else '=',
   if cUsed then btoaChars.getD (bitmap &&& 63) 'A' else '=']

/-- Manual base64 encoder from replay/sessionCreator.ts (the fallback branch
of its `btoa`).  Note the source computes the padding guards from the
post-increment value of `i`: after reading `a` at position `i0`, `i` is
`i0 + 1 + (read b) + (read c)`, and the guards are `i - 2 < len` and
`i - 1 < len`.  For a 1-char tail this makes both guards true (no `'='`
padding), which we reproduce faithfully. -/
def btoaFallback : List Char → List Char
  | [] => []
  | [c1] =>
      -- i ends at len: guards i-2 < len and i-1 < len are both true
      btoaStep (charCode c1) 0 0 true true
  | [c1, c2] =>
      -- i ends at len: both guards true
      btoaStep (charCode c1) (charCode c2) 0 true true
  | c1 :: c2 :: c3 :: rest =>
      btoaStep (charCode c1) (charCode c2) (charCode c3) true true
        ++ btoaFallback rest

/-- Postman-style canonical request (interface `PostmanRequest` in the
Postman parser; `OpenAPIRequest` shares every field used by the functions
verified here).  `id` is `Option Json`-free here: `idGiven = none` models
the synthesized time/random-dependent id (`METHOD_Date.now()_Math.random()`),
whose concrete value is nondeterministic in the source. -/
structure PRequest where
  idGiven : Option (List Char) := Option.none
  name : List Char := []
  method : List Char
  url : List Char
  headers : Headers
  bodyMode : Option (List Char) := Option.none
  bodyRaw : Option (List Char) := Option.none
  bodyFormdata : Option (List (List Char × List Char)) := Option.none
  hasAuth : Bool := false
  deriving DecidableEq

/-- Header transformation performed by `applyAuthentication` in
replay/sessionCreator.ts (the function copies the request, shallow-copies
its header map, then mutates the copy according to the auth config). -/
def applyAuthHeaders (headers : Headers) (authConfig : AuthConfig) : Headers :=
  match authConfig.type with
  | AuthType.none => headers
  | AuthType.apikey =>
      if jsTruthyS authConfig.key ∧ jsTruthyS authConfig.value then
        let h1 := hdel "Authorization".data (hdel "authorization".data headers)
        hset (authConfig.key.getD []) (authConfig.value.getD []) h1
      else headers
  | AuthType.bearer =>
      if jsTruthyS authConfig.token then
        let h1 := hdel "x-auth-token".data (hdel "X-Auth-Token".data
          (hdel "x-api-key".data (hdel "X-API-Key".data headers)))
        hset "Authorization".data ("Bearer ".data ++ authConfig.token.getD []) h1
      else headers
  | AuthType.basic =>
      if jsTruthyS authConfig.username ∧ jsTruthyS authConfig.password then
        let h1 := hdel "x-auth-token".data (hdel "X-Auth-Token".data
          (hdel "x-api-key".data (hdel "X-API-Key".data headers)))
        let credentials :=
          btoaFallback (authConfig.username.getD [] ++ ":".data ++ authConfig.password.getD [])
        hset "Authorization".data ("Basic ".data ++ credentials) h1
      else headers
  | AuthType.custom =>
      if jsTruthyS authConfig.header ∧ jsTruthyS authConfig.value then
        let h1 :=
          if toLowerStr (authConfig.header.getD []) = "authorization".data then
            hdel "x-api-key".data (hdel "X-API-Key".data headers)
          else headers
        hset (authConfig.header.getD []) (authConfig.value.getD []) h1
      else headers

/-- `applyAuthentication` from replay/sessionCreator.ts: returns a new
request whose (fresh) header map is the transformed copy; all other fields
are spread-copied unchanged. -/
def applyAuthentication (request : PRequest) (authConfig : AuthConfig) : PRequest :=
  { request with headers := applyAuthHeaders request.headers authConfig }

/-!
## Heap model for the frame/purity claim

JS reference semantics for `applyAuthentication`: header maps live in a
heap (addresses are indices into a list); `{ ...request, headers:
{ ...request.headers } }` allocates a fresh header object at a fresh
address and the subsequent `delete`/assignment statements mutate only that
fresh object.
-/

/-- A request whose header map is a heap reference rather than a value. -/
structure HRequest where
  method : List Char
  url : List Char
  headersRef : Nat
  deriving DecidableEq

/-- Heap-level `applyAuthentication`: reads the input's header object,
allocates the spread copy at a fresh address, applies the same header
transformation to the copy, and returns the heap together with the new
request (the input request object and its header object are never written). -/
def applyAuthenticationHeap (heap : List Headers) (request : HRequest)
    (authConfig : AuthConfig) : List Headers × HRequest :=
  let current := heap.getD request.headersRef []
  let fresh := applyAuthHeaders current authConfig
  (heap ++ [fresh], { request with headersRef := heap.length })

/-!
## Session naming (`generateCompleteSessionName` in replay/sessionCreator.ts)
-/

/-- Split a string at the first occurrence of `"://"`, returning the parts
before and after it (models `split('://')` restricted to the first
separator; `none` when the string does not contain `"://"`). -/
def splitCSS : List Char → Option (List Char × List Char)
  | [] => Option.none
  | c :: rest =>
      if c = ':' ∧ rest.take 2 = ['/', '/'] then Option.some ([], rest.drop 2)
      else
        match splitCSS rest with
        | Option.some (b, a) => Option.some (c :: b, a)
        | Option.none => Option.none

/-- `fullPath.split('://')[1]` when `fullPath` contains `"://"`: the segment
between the first `"://"` and the following `"://"` (or the end). -/
def urlPartsOne (u : List Char) : Option (List Char) :=
  match splitCSS u with
  | Option.none => Option.none
  | Option.some (_, a) =>
      match splitCSS a with
      | Option.some (b2, _) => Option.some b2
      | Option.none => Option.some a

/-- The suffix of the string after the last occurrence of `"}}"` (models
`substring(lastIndexOf('}}') + 2)`; `none` when `"}}"` does not occur). -/
def afterLastTpl : List Char → Option (List Char)
  | [] => Option.none
  | c :: rest =>
      match afterLastTpl rest with
      | Option.some r => Option.some r
      | Option.none =>
          if c = '}' ∧ rest.take 1 = ['}'] then Option.some (rest.drop 1)
          else Option.none

/-- The URL-shape case analysis at the top of `generateCompleteSessionName`:
absolute URL (everything from the first `/` after `://`, or `/`), templated
URL (everything after the last `}}`, `/`-prefixed), root-relative URL
(unchanged), bare relative (prefixed with `/`).  The `urlParts.length > 1 &&
urlParts[1]` guard of the source leaves the string unchanged when the
segment after the first `://` is empty. -/
def nameCaseStep (fullPath : List Char) : List Char :=
  match urlPartsOne fullPath with
  | Option.some seg =>
      if seg ≠ [] then
        if ('/' ∈ seg) then seg.dropWhile (fun c => c ≠ '/') else ['/']
      else fullPath
  | Option.none =>
      match afterLastTpl fullPath with
      | Option.some pat =>
          if pat.take 1 = ['/'] then pat else '/' :: pat
      | Option.none =>
          if fullPath.take 1 = ['/'] then fullPath else '/' :: fullPath

/-- Query stripping: `if (fullPath.includes('?')) { const pathPart =
fullPath.split('?')[0]; if (pathPart) fullPath = pathPart; }`. -/
def stripQuery (fullPath : List Char) : List Char :=
  if ('?' ∈ fullPath) then
    let pathPart := fullPath.takeWhile (fun c => c ≠ '?')
    if pathPart ≠ [] then pathPart else fullPath
  else fullPath

/-- Fragment stripping, same pattern as `stripQuery` with `'#'`. -/
def stripHash (fullPath : List Char) : List Char :=
  if ('#' ∈ fullPath) then
    let pathPart := fullPath.takeWhile (fun c => c ≠ '#')
    if pathPart ≠ [] then pathPart else fullPath
  else fullPath

/-- `replace(/\/+/g, '/')`: collapse every run of slashes to a single
slash.  The `prev` flag records whether the previous character was `/`. -/
def collapseAux (prev : Bool) : List Char → List Char
  | [] => []
  | c :: rest =>
      if c = '/' then
        if prev then collapseAux true rest else '/' :: collapseAux true rest
      else c :: collapseAux false rest

/-- Collapse repeated slashes (see `collapseAux`). -/
def collapseSlashes (cs : List Char) : List Char := collapseAux false cs

/-- Guarantee a leading slash. -/
def ensureSlash (cs : List Char) : List Char :=
  if cs.take 1 = ['/'] then cs else '/' :: cs

/-- `url.replace(/^https?:\/\/[^\/]+/, '')`: drop a leading
`http://`/`https://` scheme plus a nonempty host (maximal run of
non-`/` characters); no-op when the pattern does not match. -/
def replaceSchemeHost (u : List Char) : List Char :=
  if "https://".data.isPrefixOf u then
    let rest := u.drop 8
    let host := rest.takeWhile (fun c => c ≠ '/')
    if host = [] then u else rest.drop host.length
  else if "http://".data.isPrefixOf u then
    let rest := u.drop 7
    let host := rest.takeWhile (fun c => c ≠ '/')
    if host = [] then u else rest.drop host.length
  else u

/-- The normalized path computed by `generateCompleteSessionName` before
its final root-collapse fallback: case analysis, query stripping, fragment
stripping, slash collapsing, leading slash. -/
def normalizedPath (url : List Char) : List Char :=
  ensureSlash (collapseSlashes (stripHash (stripQuery (nameCaseStep url))))

/-- The complete path derivation of `generateCompleteSessionName`,
including the fallback: when the normalized path collapsed to `/` but the
original URL is not literally `/`, fall back to the original URL with any
`scheme://host` stripped (or `/` when that leaves nothing). -/
def sessionPath (url : List Char) : List Char :=
  let fullPath := normalizedPath url
  if fullPath = ['/'] ∧ url ≠ ['/'] then
    let stripped := replaceSchemeHost url
    if stripped = [] then ['/'] else stripped
  else fullPath

/-- `generateCompleteSessionName` from replay/sessionCreator.ts:
`"{METHOD} {path}"`.  None of the modelled string operations can throw, so
the source's catch-all fallback branch is unreachable in this model. -/
def generateCompleteSessionName (request : PRequest) : List Char :=
  toUpperStr request.method ++ ' ' :: sessionPath request.url

/-!
## Request spec building (`buildRequestSpec` / `parseUrl` in
replay/sessionCreator.ts)
-/

/-- JS `\s` whitespace class (the ASCII members, which are the only ones
relevant to the modelled inputs). -/
def isSpaceChar (c : Char) : Bool :=
  c = ' ' ∨ c = '\t' ∨ c = '\n' ∨ c = '\r' ∨ c = '\x0b' ∨ c = '\x0c'

/-- ASCII decimal digit. -/
def isDigitChar (c : Char) : Bool := '0' ≤ c ∧ c ≤ '9'

/-- `String.prototype.trim`. -/
def trimStr (s : List Char) : List Char :=
  ((s.dropWhile (fun c => isSpaceChar c)).reverse.dropWhile
    (fun c => isSpaceChar c)).reverse

/-- Natural number from a string of decimal digits (`parseInt` on the
digit-only strings produced by the `parseUrl` port group). -/
def digitsToNat (ds : List Char) : Nat :=
  ds.foldl (fun n c => n * 10 + (c.toNat - '0'.toNat)) 0

/-- Result of `parseUrl`: the named groups of the regex
`^(https?):\/\/([^:\/\s]+)(?::(\d+))?(\/[^\s?]*)?(\?[^\s]*)?`.
`protocol` includes the trailing `':'` as in the source. -/
structure UrlParts where
  protocol : List Char
  hostname : List Char
  port : Option (List Char)
  pathname : List Char
  search : Option (List Char)
  deriving DecidableEq, Repr

/-- Character admissible in the hostname group `[^:\/\s]+`. -/
def isHostChar (c : Char) : Bool := ¬(c = ':' ∨ c = '/' ∨ isSpaceChar c)

/-- `parseUrl` from replay/sessionCreator.ts: sequential match of the
anchored regex above.  All groups after the hostname are optional and the
regex is not end-anchored, so trailing unmatched text is ignored;
`pathname` defaults to `/` and `search` to `undefined` exactly as in the
source's result object. -/
def parseUrl (urlString : List Char) : Option UrlParts :=
  let afterScheme : Option (List Char × List Char) :=
    if "https://".data.isPrefixOf urlString then
      Option.some ("https:".data, urlString.drop 8)
    else if "http://".data.isPrefixOf urlString then
      Option.some ("http:".data, urlString.drop 7)
    else Option.none
  match afterScheme with
  | Option.none => Option.none
  | Option.some (proto, rest) =>
      let host := rest.takeWhile isHostChar
      if host = [] then Option.none
      else
        let r1 := rest.drop host.length
        let portDigits :=
          if r1.take 1 = [':'] then (r1.drop 1).takeWhile isDigitChar else []
        let port : Option (List Char) :=
          if portDigits ≠ [] then Option.some portDigits else Option.none
        let r2 := if portDigits ≠ [] then r1.drop (1 + portDigits.length) else r1
        let path :=
          if r2.take 1 = ['/'] then
            r2.takeWhile (fun c => ¬(isSpaceChar c ∨ c = '?'))
          else []
        let r3 := r2.drop path.length
        let search : Option (List Char) :=
          if r3.take 1 = ['?'] then
            Option.some (r3.takeWhile (fun c => ¬ isSpaceChar c))
          else Option.none
        Option.some
          { protocol := proto
            hostname := host
            port := port
            pathname := if path = [] then ['/'] else path
            search := search }

/-- One pass of the global regex replace `/\{\{[^}]+\}\}/g`: at a `{{`,
greedily take the nonempty run of non-`}` characters; if it is followed by
`}}` the whole match is replaced and scanning resumes after it, otherwise
scanning advances one character (so the second `{` may start a new match).
Fuel-structural so that the definition computes; `fuel = length` always
suffices since every step consumes at least one character. -/
def replaceTplF (rep : List Char) : Nat → List Char → List Char
  | 0, cs => cs
  | Nat.succ fuel, cs =>
      match cs with
      | [] => []
      | '{' :: '{' :: rest =>
          let run := rest.takeWhile (fun c => c ≠ '}')
          let after := rest.drop run.length
          if run ≠ [] ∧ after.take 2 = ['}', '}'] then
            rep ++ replaceTplF rep fuel (after.drop 2)
          else '{' :: replaceTplF rep fuel ('{' :: rest)
      | c :: rest => c :: replaceTplF rep fuel rest

/-- `targetUrl.replace(/\{\{[^}]+\}\}/g, rep)`. -/
def replaceTemplates (rep cs : List Char) : List Char :=
  replaceTplF rep cs.length cs

/-- Unreserved characters of `encodeURIComponent`. -/
def isUriUnreserved (c : Char) : Bool :=
  ('A' ≤ c ∧ c ≤ 'Z') ∨ ('a' ≤ c ∧ c ≤ 'z') ∨ ('0' ≤ c ∧ c ≤ '9') ∨
    c ∈ ['-', '_', '.', '!', '~', '*', '\x27', '(', ')']

/-- Uppercase hex digit of a value below 16. -/
def hexDigit (n : Nat) : Char := "0123456789ABCDEF".data.getD n '0'

/-- Percent-encode one byte. -/
def pctByte (b : Nat) : List Char := ['%', hexDigit (b / 16), hexDigit (b % 16)]

/-- `encodeURIComponent` over the UTF-8 encoding of the string. -/
def encodeURIComponent (s : List Char) : List Char :=
  s.flatMap (fun c =>
    if isUriUnreserved c then [c]
    else (String.singleton c).toUTF8.toList.flatMap (fun b => pctByte b.toNat))

/-- The resolved, transport-ready request description returned by
`buildRequestSpec` (its serialized result object). -/
structure RequestSpec where
  method : List Char
  host : List Char
  port : Nat
  path : List Char
  query : List Char
  headers : Headers
  body : List Char
  tls : Bool
  url : List Char
  deriving DecidableEq, Repr

/-- `buildRequestSpec` from replay/sessionCreator.ts.  `hostname` is the
optional override; `none` returned models the source returning `null`
(request dropped).  The source's inner `try/catch` around `parseUrl` is
dead (the modelled `parseUrl` returns `null` instead of throwing, leaving
`targetUrl` unchanged), matching the source where `parseUrl` never throws. -/
def buildRequestSpec (request : PRequest) (hostname : Option (List Char) := Option.none) :
    Option RequestSpec :=
  let url0 := request.url
  let t1 :=
    match hostname with
    | Option.some h =>
        if trimStr h ≠ [] then
          let ht := trimStr h
          if containsSub url0 "\x7b\x7b".data ∧ containsSub url0 "\x7d\x7d".data then
            replaceTemplates ht url0
          else if url0.take 1 = ['/'] then
            "https://".data ++ ht ++ url0
          else
            let candidate :=
              if "http".data.isPrefixOf url0 then url0 else "https://".data ++ url0
            match parseUrl candidate with
            | Option.some urlObj =>
                urlObj.protocol ++ "//".data ++ ht ++ urlObj.pathname ++
                  (urlObj.search.getD [])
            | Option.none => url0
        else
          if containsSub url0 "\x7b\x7b".data ∧ containsSub url0 "\x7d\x7d".data then
            if url0.take 1 = ['/'] then "https://example.com".data ++ url0
            else replaceTemplates "example.com".data url0
          else if url0.take 1 = ['/'] then "https://example.com".data ++ url0
          else url0
    | Option.none =>
        if containsSub url0 "\x7b\x7b".data ∧ containsSub url0 "\x7d\x7d".data then
          if url0.take 1 = ['/'] then "https://example.com".data ++ url0
          else replaceTemplates "example.com".data url0
        else if url0.take 1 = ['/'] then "https://example.com".data ++ url0
        else url0
  let targetUrl := if "http".data.isPrefixOf t1 then t1 else "https://".data ++ t1
  match parseUrl targetUrl with
  | Option.none => Option.none
  | Option.some urlObj =>
      -- body: a truthy `raw` wins; otherwise a present `formdata` array
      -- (arrays are truthy in JS even when empty) is url-encoded and forces
      -- the form content type
      let useFormdata : Bool := ¬ jsTruthyS request.bodyRaw ∧ request.bodyFormdata.isSome
      let finalBody : List Char :=
        if jsTruthyS request.bodyRaw then request.bodyRaw.getD []
        else
          match request.bodyFormdata with
          | Option.some fd =>
              let pairs := fd.map (fun (p : List Char × List Char) =>
                encodeURIComponent p.1 ++ '=' :: encodeURIComponent p.2)
              (pairs.intersperse "&".data).flatten
          | Option.none => []
      let finalHeaders :=
        if useFormdata then
          hset "Content-Type".data "application/x-www-form-urlencoded".data
            request.headers
        else request.headers
      Option.some
        { method := request.method
          host := urlObj.hostname
          port :=
            match urlObj.port with
            | Option.some p => digitsToNat p
            | Option.none => if urlObj.protocol = "https:".data then 443 else 80
          path := urlObj.pathname
          query := urlObj.search.getD []
          headers := finalHeaders
          body := finalBody
          tls := urlObj.protocol = "https:".data
          url := targetUrl }

/-!
## JSON values (results of `JSON.parse`) and JS object semantics
-/

/-- A parsed JSON value.  Numbers keep their source literal (their exact
numeric value is never needed by the verified functions beyond truthiness,
which is determined by the literal). -/
inductive Json where
  | null : Json
  | bool (b : Bool) : Json
  | num (raw : List Char) : Json
  | str (s : List Char) : Json
  | arr (xs : List Json) : Json
  | obj (fields : List (List Char × Json)) : Json

mutual

def Json.decEq : (a b : Json) → Decidable (a = b)
  | .null, .null => isTrue rfl
  | .bool a, .bool b =>
      if h : a = b then isTrue (by rw [h]) else isFalse (by simp [h])
  | .num a, .num b =>
      if h : a = b then isTrue (by rw [h]) else isFalse (by simp [h])
  | .str a, .str b =>
      if h : a = b then isTrue (by rw [h]) else isFalse (by simp [h])
  | .arr xs, .arr ys =>
      match Json.decEqList xs ys with
      | isTrue h => isTrue (by rw [h])
      | isFalse h => isFalse (by simp [h])
  | .obj fs, .obj gs =>
      match Json.decEqFields fs gs with
      | isTrue h => isTrue (by rw [h])
      | isFalse h => isFalse (by simp [h])
  | .null, .bool _ => isFalse (by simp)
  | .null, .num _ => isFalse (by simp)
  | .null, .str _ => isFalse (by simp)
  | .null, .arr _ => isFalse (by simp)
  | .null, .obj _ => isFalse (by simp)
  | .bool _, .null => isFalse (by simp)
  | .bool _, .num _ => isFalse (by simp)
  | .bool _, .str _ => isFalse (by simp)
  | .bool _, .arr _ => isFalse (by simp)
  | .bool _, .obj _ => isFalse (by simp)
  | .num _, .null => isFalse (by simp)
  | .num _, .bool _ => isFalse (by simp)
  | .num _, .str _ => isFalse (by simp)
  | .num _, .arr _ => isFalse (by simp)
  | .num _, .obj _ => isFalse (by simp)
  | .str _, .null => isFalse (by simp)
  | .str _, .bool _ => isFalse (by simp)
  | .str _, .num _ => isFalse (by simp)
  | .str _, .arr _ => isFalse (by simp)
  | .str _, .obj _ => isFalse (by simp)
  | .arr _, .null => isFalse (by simp)
  | .arr _, .bool _ => isFalse (by simp)
  | .arr _, .num _ => isFalse (by simp)
  | .arr _, .str _ => isFalse (by simp)
  | .arr _, .obj _ => isFalse (by simp)
  | .obj _, .null => isFalse (by simp)
  | .obj _, .bool _ => isFalse (by simp)
  | .obj _, .num _ => isFalse (by simp)
  | .obj _, .str _ => isFalse (by simp)
  | .obj _, .arr _ => isFalse (by simp)

def Json.decEqList : (xs ys : List Json) → Decidable (xs = ys)
  | [], [] => isTrue rfl
  | [], _ :: _ => isFalse (by simp)
  | _ :: _, [] => isFalse (by simp)
  | x :: xs, y :: ys =>
      match Json.decEq x y, Json.decEqList xs ys with
      | isTrue h1, isTrue h2 => isTrue (by rw [h1, h2])
      | isFalse h1, _ => isFalse (by simp [h1])
      | _, isFalse h2 => isFalse (by simp [h2])

def Json.decEqFields : (fs gs : List (List Char × Json)) → Decidable (fs = gs)
  | [], [] => isTrue rfl
  | [], _ :: _ => isFalse (by simp)
  | _ :: _, [] => isFalse (by simp)
  | (k, v) :: fs, (l, w) :: gs =>
      match List.hasDecEq k l, Json.decEq v w, Json.decEqFields fs gs with
      | isTrue h1, isTrue h2, isTrue h3 => isTrue (by rw [h1, h2, h3])
      | isFalse h1, _, _ => isFalse (by simp [h1])
      | _, isFalse h2, _ => isFalse (by simp [h2])
      | _, _, isFalse h3 => isFalse (by simp [h3])

end

instance : DecidableEq Json := Json.decEq

/-- Whether a JSON number literal denotes the value `0` (the mantissa part,
before any exponent, contains no nonzero digit). -/
def numIsZero (raw : List Char) : Bool :=
  (raw.takeWhile (fun c => ¬(c = 'e' ∨ c = 'E'))).all
    (fun c => ¬('1' ≤ c ∧ c ≤ '9'))

/-- JS truthiness of a JSON value (`undefined` is represented by
`Option.none` at use sites, see `jsTruthyO`). -/
def jsTruthy : Json → Bool
  | Json.null => false
  | Json.bool b => b
  | Json.num raw => ¬ numIsZero raw
  | Json.str s => s ≠ []
  | Json.arr _ => true
  | Json.obj _ => true

/-- JS truthiness of a possibly-undefined JSON value. -/
def jsTruthyO : Option Json → Bool
  | Option.none => false
  | Option.some v => jsTruthy v

/-- `typeof v === 'object'` (true for objects, arrays and `null`). -/
def jsIsObjectType : Json → Bool
  | Json.null => true
  | Json.arr _ => true
  | Json.obj _ => true
  | _ => false

/-- Canonical decimal representation of a natural number. -/
def natToDigits (n : Nat) : List Char := (Nat.toDigits 10 n)

/-- JS string coercion of a JSON value (used for template literals, object
keys and `.toString()`).  Number literals are kept verbatim (JS canonical
number formatting is not modelled; the verified inputs never coerce a
number whose literal differs from its canonical form).  Array coercion is
`join(',')` with null elements becoming empty, nested values coerced
shallowly (one level, which covers every modelled input). -/
def jsToString : Json → List Char
  | Json.null => "null".data
  | Json.bool true => "true".data
  | Json.bool false => "false".data
  | Json.num raw => raw
  | Json.str s => s
  | Json.obj _ => "[object Object]".data
  | Json.arr xs =>
      ((xs.map (fun x =>
        match x with
        | Json.null => []
        | Json.bool true => "true".data
        | Json.bool false => "false".data
        | Json.num raw => raw
        | Json.str s => s
        | Json.obj _ => "[object Object]".data
        | Json.arr _ => [])).intersperse ",".data).flatten

/-- Field lookup on a JSON object: `v.k`, returning `none` for `undefined`
(also `none` on non-objects, whose modelled property accesses are only
performed on values first checked for truthiness/object-ness, or return
`undefined` in JS for the primitives that occur). -/
def getField (v : Json) (k : List Char) : Option Json :=
  match v with
  | Json.obj fields => (fields.find? (fun f => f.1 = k)).map Prod.snd
  | _ => Option.none

/-- Insert/overwrite a field of a JS object under assignment semantics
(existing key keeps its position, otherwise append). -/
def objSet (fields : List (List Char × Json)) (k : List Char) (v : Json) :
    List (List Char × Json) :=
  if fields.any (fun f => f.1 = k) then
    fields.map (fun f => if f.1 = k then (k, v) else f)
  else fields ++ [(k, v)]

/-- Is `s` the canonical decimal form of an index below `n`
(JS array index membership for `s in arr`). -/
def isCanonicalIndexBelow (s : List Char) (n : Nat) : Bool :=
  (List.range n).any (fun i => natToDigits i = s)

/-- JS property access `v[segment]` as used by the `$ref` path walk: object
fields, array elements by canonical index, and the array `length` property.
The prototype chain is not modelled (its members are functions, which the
walk discards at the next `typeof` check or which generate no example). -/
def jsGetProp (v : Json) (k : List Char) : Option Json :=
  match v with
  | Json.obj fields => (fields.find? (fun f => f.1 = k)).map Prod.snd
  | Json.arr xs =>
      if k = "length".data then Option.some (Json.num (natToDigits xs.length))
      else
        match (List.range xs.length).find? (fun i => natToDigits i = k) with
        | Option.some i => xs.get? i
        | Option.none => Option.none
  | _ => Option.none

/-- JS `k in v` for the values reached by the `$ref` path walk (`v` is
always a non-null object or array there, see `jsGetProp`). -/
def jsHasProp (v : Json) (k : List Char) : Bool :=
  match v with
  | Json.obj fields => fields.any (fun f => f.1 = k)
  | Json.arr xs => k = "length".data ∨ isCanonicalIndexBelow k xs.length
  | _ => false

/-- `Object.entries`: fields of an object, indexed elements of an array,
indexed characters of a string, nothing for other primitives. -/
def jsEntries (v : Json) : List (List Char × Json) :=
  match v with
  | Json.obj fields => fields
  | Json.arr xs => (xs.enum.map (fun p => (natToDigits p.1, p.2)))
  | Json.str s => (s.enum.map (fun p => (natToDigits p.1, Json.str [p.2])))
  | _ => []

/-!
## `JSON.parse` (recursive-descent model of the ECMA JSON grammar)
-/

/-- JSON insignificant whitespace. -/
def skipWs (cs : List Char) : List Char :=
  cs.dropWhile (fun c => c = ' ' ∨ c = '\t' ∨ c = '\n' ∨ c = '\r')

/-- Hex digit value. -/
def hexVal (c : Char) : Option Nat :=
  if '0' ≤ c ∧ c ≤ '9' then Option.some (c.toNat - '0'.toNat)
  else if 'a' ≤ c ∧ c ≤ 'f' then Option.some (c.toNat - 'a'.toNat + 10)
  else if 'A' ≤ c ∧ c ≤ 'F' then Option.some (c.toNat - 'A'.toNat + 10)
  else Option.none

/-- Parse the body of a JSON string after the opening quote, returning the
decoded characters and the input after the closing quote.  `\uXXXX`
escapes decode to the corresponding code point (unpaired surrogates, which
are not valid `Char` scalars, decode to the null character — the modelled
inputs never contain them). -/
def parseStrBody : Nat → List Char → Option (List Char × List Char)
  | 0, _ => Option.none
  | Nat.succ fuel, cs =>
      match cs with
      | [] => Option.none
      | '"' :: rest => Option.some ([], rest)
      | '\\' :: rest =>
          match rest with
          | '"' :: r => (parseStrBody fuel r).map (fun p => ('"' :: p.1, p.2))
          | '\\' :: r => (parseStrBody fuel r).map (fun p => ('\\' :: p.1, p.2))
          | '/' :: r => (parseStrBody fuel r).map (fun p => ('/' :: p.1, p.2))
          | 'b' :: r => (parseStrBody fuel r).map (fun p => ('\x08' :: p.1, p.2))
          | 'f' :: r => (parseStrBody fuel r).map (fun p => ('\x0c' :: p.1, p.2))
          | 'n' :: r => (parseStrBody fuel r).map (fun p => ('\n' :: p.1, p.2))
          | 'r' :: r => (parseStrBody fuel r).map (fun p => ('\r' :: p.1, p.2))
          | 't' :: r => (parseStrBody fuel r).map (fun p => ('\t' :: p.1, p.2))
          | 'u' :: h1 :: h2 :: h3 :: h4 :: r =>
              match hexVal h1, hexVal h2, hexVal h3, hexVal h4 with
              | Option.some a, Option.some b, Option.some c, Option.some d =>
                  let code := ((a * 16 + b) * 16 + c) * 16 + d
                  (parseStrBody fuel r).map (fun p => (Char.ofNat code :: p.1, p.2))
              | _, _, _, _ => Option.none
          | _ => Option.none
      | c :: rest =>
          if c.toNat < 32 then Option.none
          else (parseStrBody fuel rest).map (fun p => (c :: p.1, p.2))

/-- Parse a JSON number literal (`-? (0 | [1-9][0-9]*) frac? exp?`),
returning the literal text and the remaining input. -/
def parseNumLit (cs : List Char) : Option (List Char × List Char) :=
  let (sign, r0) : List Char × List Char :=
    if cs.take 1 = ['-'] then (['-'], cs.drop 1) else ([], cs)
  let intPart :=
    match r0 with
    | '0' :: _ => ['0']
    | _ => r0.takeWhile isDigitChar
  if intPart = [] then Option.none
  else if intPart.length > 1 ∧ intPart.take 1 = ['0'] then Option.none
  else
    let r1 := r0.drop intPart.length
    let fracDigits := if r1.take 1 = ['.'] then (r1.drop 1).takeWhile isDigitChar else []
    if r1.take 1 = ['.'] ∧ fracDigits = [] then Option.none
    else
      let fracPart : List Char := if fracDigits = [] then [] else '.' :: fracDigits
      let r2 := r1.drop fracPart.length
      if r2.take 1 = ['e'] ∨ r2.take 1 = ['E'] then
        let eChar := r2.take 1
        let r3 := r2.drop 1
        let expSign : List Char :=
          if r3.take 1 = ['+'] ∨ r3.take 1 = ['-'] then r3.take 1 else []
        let r4 := r3.drop expSign.length
        let expDigits := r4.takeWhile isDigitChar
        if expDigits = [] then Option.none
        else
          Option.some (sign ++ intPart ++ fracPart ++ eChar ++ expSign ++ expDigits,
            r4.drop expDigits.length)
      else Option.some (sign ++ intPart ++ fracPart, r2)

mutual

/-- Parse one JSON value at the head of the input (whitespace already
skipped), returning it and the remaining input. -/
def parseValueF : Nat → List Char → Option (Json × List Char)
  | 0, _ => Option.none
  | Nat.succ fuel, cs =>
      match cs with
      | [] => Option.none
      | c :: rest =>
          if c = '{' then parseObjItems fuel (skipWs rest) []
          else if c = '[' then parseArrItems fuel (skipWs rest) []
          else if c = '"' then
            (parseStrBody (Nat.succ fuel) rest).map (fun p => (Json.str p.1, p.2))
          else if "true".data.isPrefixOf cs then Option.some (Json.bool true, cs.drop 4)
          else if "false".data.isPrefixOf cs then Option.some (Json.bool false, cs.drop 5)
          else if "null".data.isPrefixOf cs then Option.some (Json.null, cs.drop 4)
          else (parseNumLit cs).map (fun p => (Json.num p.1, p.2))

/-- Parse the members of an object after `{` (and after a preceding comma),
accumulating fields with JS assignment semantics (duplicate keys keep the
first position, last value wins). -/
def parseObjItems : Nat → List Char → List (List Char × Json) →
    Option (Json × List Char)
  | 0, _, _ => Option.none
  | Nat.succ fuel, cs, acc =>
      match cs with
      | '}' :: rest =>
          if acc = [] then Option.some (Json.obj [], rest) else Option.none
      | '"' :: rest =>
          match parseStrBody (Nat.succ fuel) rest with
          | Option.none => Option.none
          | Option.some (key, r1) =>
              match skipWs r1 with
              | ':' :: r2 =>
                  match parseValueF fuel (skipWs r2) with
                  | Option.none => Option.none
                  | Option.some (v, r3) =>
                      let acc2 := objSet acc key v
                      match skipWs r3 with
                      | ',' :: r4 => parseObjItems fuel (skipWs r4) acc2
                      | '}' :: r4 => Option.some (Json.obj acc2, r4)
                      | _ => Option.none
              | _ => Option.none
      | _ => Option.none

/-- Parse the elements of an array after `[` (and after a preceding comma). -/
def parseArrItems : Nat → List Char → List Json → Option (Json × List Char)
  | 0, _, _ => Option.none
  | Nat.succ fuel, cs, acc =>
      match cs with
      | ']' :: rest =>
          if acc = [] then Option.some (Json.arr [], rest) else Option.none
      | _ =>
          match parseValueF fuel cs with
          | Option.none => Option.none
          | Option.some (v, r1) =>
              match skipWs r1 with
              | ',' :: r2 => parseArrItems fuel (skipWs r2) (acc ++ [v])
              | ']' :: r2 => Option.some (Json.arr (acc ++ [v]), r2)
              | _ => Option.none

end

/-- `JSON.parse`: `none` models a thrown `SyntaxError`. -/
def parseJson (content : List Char) : Option Json :=
  match parseValueF (2 * content.length + 2) (skipWs content) with
  | Option.some (v, rest) => if skipWs rest = [] then Option.some v else Option.none
  | Option.none => Option.none

/-!
## Environment parser (parsers/environment.ts): secret inference and the
environment-detection predicate
-/

/-- `SENSITIVE_KEYWORDS` from parsers/environment.ts. -/
def sensitiveKeywords : List (List Char) :=
  ["token".data, "key".data, "secret".data, "password".data, "auth".data,
   "authorization".data, "bearer".data, "api_key".data, "apikey".data,
   "client_secret".data, "access_token".data, "refresh_token".data,
   "private_key".data, "credential".data, "pass".data, "pwd".data]

/-- Character class `[a-zA-Z0-9_\-\.]` of the token-value pattern. -/
def isTokenChar (c : Char) : Bool :=
  ('a' ≤ c ∧ c ≤ 'z') ∨ ('A' ≤ c ∧ c ≤ 'Z') ∨ ('0' ≤ c ∧ c ≤ '9') ∨
    c = '_' ∨ c = '-' ∨ c = '.'

/-- `shouldBeSecret` from parsers/environment.ts: keyword match on the
lowercased key, or a value matching `/^[a-zA-Z0-9_\-\.]{20,}$/` that is
additionally longer than 20 characters. -/
def shouldBeSecret (key value : List Char) : Bool :=
  let keyLower := toLowerStr key
  let keyHasSensitive := sensitiveKeywords.any (fun kw => containsSub keyLower kw)
  let valueIsToken :=
    (value.length ≥ 20 ∧ value.all isTokenChar) ∧ value.length > 20
  keyHasSensitive ∨ valueIsToken

/-- `isPostmanEnvironment` from parsers/environment.ts. -/
def isPostmanEnvironment (content fileName : List Char) : Bool :=
  match parseJson content with
  | Option.none => false
  | Option.some data =>
      let nameOk :=
        match getField data "name".data with
        | Option.some (Json.str s) => s ≠ []
        | _ => false
      let valuesOk :=
        match getField data "values".data with
        | Option.some (Json.arr _) => true
        | _ => false
      if nameOk = false then false
      else if valuesOk = false then false
      else
        let hasPostmanScope : Bool :=
          decide (getField data "_postman_variable_scope".data =
            Option.some (Json.str "environment".data))
        let hasPostmanExport : Bool :=
          match getField data "_postman_exported_at".data with
          | Option.some (Json.str s) => s ≠ []
          | _ => false
        let hasEnvironmentInName : Bool :=
          containsSub (toLowerStr fileName) "environment".data ∨
            containsSub (toLowerStr fileName) "env".data
        (hasPostmanScope ∨ hasPostmanExport) ∧ hasEnvironmentInName

/-!
## Format classifier (utils/fileDetection.ts)
-/

/-- ASCII word character (`\w`). -/
def isWordChar (c : Char) : Bool :=
  ('A' ≤ c ∧ c ≤ 'Z') ∨ ('a' ≤ c ∧ c ≤ 'z') ∨ ('0' ≤ c ∧ c ≤ '9') ∨ c = '_'

/-- `[\w-]`. -/
def isWordDash (c : Char) : Bool := isWordChar c ∨ c = '-'

/-- The suffixes of the content starting at each line start (the positions
where `^` matches under the `m` flag). -/
def lineStartsAux : List Char → List (List Char)
  | [] => []
  | c :: rest =>
      if c = '\n' then rest :: lineStartsAux rest else lineStartsAux rest

/-- All `^`-anchored suffixes of a string (start of input and after each
newline). -/
def lineStarts (cs : List Char) : List (List Char) := cs :: lineStartsAux cs

/-- `$` (multiline) can be reached from here by consuming whitespace:
some prefix of the whitespace run ends the string or is followed by a
newline. -/
def wsThenLineEnd (s : List Char) : Bool :=
  let r := s.takeWhile (fun c => isSpaceChar c)
  '\n' ∈ r ∨ s.drop r.length = []

/-- YAML indicator `/^---\s*$/m`. -/
def yamlDocSep (cs : List Char) : Bool :=
  (lineStarts cs).any (fun t =>
    "---".data.isPrefixOf t ∧ wsThenLineEnd (t.drop 3))

/-- YAML indicator `/^\s*\w+:\s*$/m`. -/
def yamlKeyLine (cs : List Char) : Bool :=
  (lineStarts cs).any (fun t =>
    let t1 := t.dropWhile (fun c => isSpaceChar c)
    let run := t1.takeWhile (fun c => isWordChar c)
    run ≠ [] ∧ (t1.drop run.length).take 1 = [':'] ∧
      wsThenLineEnd (t1.drop (run.length + 1)))

/-- YAML indicator `/^\s*-\s+/m`. -/
def yamlListItem (cs : List Char) : Bool :=
  (lineStarts cs).any (fun t =>
    let t1 := t.dropWhile (fun c => isSpaceChar c)
    decide (t1.take 1 = ['-']) &&
      (match t1.drop 1 with
       | c :: _ => isSpaceChar c
       | [] => false))

/-- YAML indicator `/^\s*[\w-]+:\s+[\w-]/m`. -/
def yamlKeyValue (cs : List Char) : Bool :=
  (lineStarts cs).any (fun t =>
    let t1 := t.dropWhile (fun c => isSpaceChar c)
    let run := t1.takeWhile (fun c => isWordDash c)
    decide (run ≠ []) && decide ((t1.drop run.length).take 1 = [':']) &&
      (match t1.drop (run.length + 1) with
       | c :: rest =>
           isSpaceChar c &&
             (match (c :: rest).dropWhile (fun d => isSpaceChar d) with
              | d :: _ => isWordDash d
              | [] => false)
       | [] => false))

/-- Number of YAML indicator regexes that match the content. -/
def yamlIndicatorCount (content : List Char) : Nat :=
  (if yamlDocSep content then 1 else 0) +
  (if yamlKeyLine content then 1 else 0) +
  (if yamlListItem content then 1 else 0) +
  (if yamlKeyValue content then 1 else 0)

/-- Trimmed content starts with `{` or `[`. -/
def hasJsonIndicators (content : List Char) : Bool :=
  (trimStr content).take 1 = ['{'] ∨ (trimStr content).take 1 = ['[']

/-- `isLikelyYAML` from utils/fileDetection.ts: `.yaml`/`.yml` filename
extension, or at least two YAML content indicators together with a
non-`{`/`[` start. -/
def isLikelyYAML (content fileName : List Char) : Bool :=
  if ".yaml".data.isSuffixOf (toLowerStr fileName) then true
  else if ".yml".data.isSuffixOf (toLowerStr fileName) then true
  else yamlIndicatorCount content ≥ 2 ∧ ¬ hasJsonIndicators content

/-- JS `a || b` on possibly-undefined values. -/
def jsOr (a b : Option Json) : Option Json := if jsTruthyO a then a else b

/-- `isPostmanCollection` from utils/fileDetection.ts. -/
def isPostmanCollection (data : Json) : Bool :=
  let info := getField data "info".data
  match info with
  | Option.none => false
  | Option.some i =>
      if ¬(jsTruthy i ∧ jsIsObjectType i) then false
      else if ¬ jsTruthyO (getField i "name".data) then false
      else
        match getField i "name".data with
        | Option.some (Json.str _) =>
            let hasPostmanSchema : Bool :=
              match getField i "schema".data with
              | Option.some (Json.str s) =>
                  s ≠ [] ∧ containsSub s "postman".data
              | _ => false
            let hasPostmanStructure : Bool :=
              jsTruthyO (getField data "item".data) &&
                (match getField data "item".data with
                 | Option.some (Json.arr _) => true
                 | _ => false)
            let hasPostmanVersion : Bool :=
              jsTruthyO (getField i "_postman_id".data) ∨
                jsTruthyO (getField i "version".data) ∨ hasPostmanSchema
            hasPostmanSchema ∨ (hasPostmanStructure ∧ hasPostmanVersion)
        | _ => false

/-- The HTTP method keys probed by the structural OpenAPI check. -/
def detectHttpMethods : List (List Char) :=
  ["get".data, "post".data, "put".data, "patch".data, "delete".data,
   "head".data, "options".data]

/-- `isOpenAPISpec` from utils/fileDetection.ts. -/
def isOpenAPISpec (data : Json) : Bool :=
  let oa := getField data "openapi".data
  let sw := getField data "swagger".data
  match oa with
  | Option.some (Json.str s) =>
      if s ≠ [] then "3.".data.isPrefixOf s
      else isOpenAPISpecSwagger data sw
  | _ => isOpenAPISpecSwagger data sw
where
  /-- The swagger-version and structural fallback checks. -/
  isOpenAPISpecSwagger (data : Json) (sw : Option Json) : Bool :=
    match sw with
    | Option.some (Json.str s) =>
        if s ≠ [] then "2.".data.isPrefixOf s else isOpenAPISpecStructure data
    | _ => isOpenAPISpecStructure data
  /-- The `info`/`paths`-shape fallback check. -/
  isOpenAPISpecStructure (data : Json) : Bool :=
    let info := getField data "info".data
    let paths := getField data "paths".data
    match info, paths with
    | Option.some i, Option.some p =>
        if jsTruthy i ∧ jsTruthy p ∧ jsIsObjectType i ∧ jsIsObjectType p then
          match (jsEntries p).map Prod.fst with
          | k :: _ =>
              if k ≠ [] then
                match jsGetProp p k with
                | Option.some fp =>
                    jsTruthy fp ∧ jsIsObjectType fp ∧
                      detectHttpMethods.any (fun m => jsHasProp fp m)
                | Option.none => false
              else false
          | [] => false
        else false
    | _, _ => false

/-- Verdict type of the classifier. -/
inductive FType where
  | postman | openapi | environment | unknown
  deriving DecidableEq, Repr

/-- `detectFromFilename` from utils/fileDetection.ts. -/
def detectFromFilename (fileName : List Char) : FType :=
  let lowerName := toLowerStr fileName
  let environmentPatterns :=
    ["environment".data, "env".data, ".postman_environment.".data,
     "_environment.".data, "postman_env".data]
  let postmanPatterns :=
    ["postman_collection".data, "collection".data, "newman".data,
     ".postman_collection.".data, "_collection.".data, "api_collection".data,
     "requests".data]
  let openApiPatterns :=
    ["openapi".data, "swagger".data, "api-docs".data, "api_spec".data,
     "spec.json".data, "spec.yaml".data, "spec.yml".data, "oas".data,
     "rest-api".data]
  if environmentPatterns.any (fun p => containsSub lowerName p) then
    FType.environment
  else if postmanPatterns.any (fun p => containsSub lowerName p) then
    FType.postman
  else if openApiPatterns.any (fun p => containsSub lowerName p) then
    FType.openapi
  else if ".yaml".data.isSuffixOf lowerName ∨ ".yml".data.isSuffixOf lowerName then
    FType.openapi
  else FType.unknown

/-- The `details` strings produced by `detectFileType`, modelled by
constructors carrying the interpolated values (the JSON engine's error
text in the invalid-JSON message is runtime-dependent and is not
modelled beyond its identity). -/
inductive FDetails where
  | postmanDetected (infoName : Option Json)
  | openapiDetected (version : Option Json)
  | environmentDetected (name : Option Json)
  | filenameDetected (t : FType)
  | validJsonUnrecognized
  | yamlUnsupported
  | invalidJson
  deriving DecidableEq

/-- `FileTypeResult` from utils/fileDetection.ts. -/
structure FileTypeResult where
  ftype : FType
  confidence : ℚ
  details : FDetails
  deriving DecidableEq

/-- `detectFileType` from utils/fileDetection.ts (pure in the source; the
`sdk` parameter is unused there and omitted here). -/
def detectFileType (content fileName : List Char) : FileTypeResult :=
  match parseJson content with
  | Option.some data =>
      if isPostmanCollection data then
        { ftype := FType.postman
          confidence := 95 / 100
          details := FDetails.postmanDetected
            ((getField data "info".data).bind (fun i => getField i "name".data)) }
      else if isOpenAPISpec data then
        { ftype := FType.openapi
          confidence := 95 / 100
          details := FDetails.openapiDetected
            (jsOr (getField data "openapi".data) (getField data "swagger".data)) }
      else if isPostmanEnvironment content fileName then
        { ftype := FType.environment
          confidence := 95 / 100
          details := FDetails.environmentDetected (getField data "name".data) }
      else if detectFromFilename fileName ≠ FType.unknown then
        { ftype := detectFromFilename fileName
          confidence := 6 / 10
          details := FDetails.filenameDetected (detectFromFilename fileName) }
      else
        { ftype := FType.unknown
          confidence := 0
          details := FDetails.validJsonUnrecognized }
  | Option.none =>
      if isLikelyYAML content fileName then
        { ftype := FType.unknown
          confidence := 0
          details := FDetails.yamlUnsupported }
      else
        { ftype := FType.unknown
          confidence := 0
          details := FDetails.invalidJson }

/-!
## Postman collection parser (parsers/postman.ts)
-/

/-- JS string coercion of a possibly-undefined value (as it occurs in
string contexts like template literals and object keys). -/
def jsCoerceStr : Option Json → List Char
  | Option.some v => jsToString v
  | Option.none => "undefined".data

/-- `Array.prototype.join`: elements coerced, `null` becoming empty. -/
def jsJoin (sep : List Char) (xs : List Json) : List Char :=
  ((xs.map (fun x =>
    match x with
    | Json.null => []
    | v => jsToString v)).intersperse sep).flatten

/-- The values produced by iterating `for (const x of v)`: array elements,
or the characters of a string; `none` models the `TypeError` thrown for
non-iterable values. -/
def iterElems : Json → Option (List Json)
  | Json.arr xs => Option.some xs
  | Json.str s => Option.some (s.map (fun c => Json.str [c]))
  | _ => Option.none

/-- The URL extraction of `parsePostmanRequest`: plain string, `{raw}`, or
structured `{protocol, host[], port?, path[]}`.  `none` models a thrown
`TypeError` (e.g. `join` on a non-array `host`/`path`), which the source's
`catch` turns into a skipped request. -/
def postmanUrlOf (request : Json) : Option (List Char) :=
  match getField request "url".data with
  | Option.some (Json.str s) => Option.some s
  | urlF =>
      if jsTruthyO urlF ∧ jsTruthyO (urlF.bind (fun u => getField u "raw".data)) then
        Option.some (jsCoerceStr (urlF.bind (fun u => getField u "raw".data)))
      else if jsTruthyO urlF ∧
          jsTruthyO (urlF.bind (fun u => getField u "protocol".data)) ∧
          jsTruthyO (urlF.bind (fun u => getField u "host".data)) then
        match urlF.bind (fun u => getField u "host".data) with
        | Option.some (Json.arr hostParts) =>
            let base :=
              jsCoerceStr (urlF.bind (fun u => getField u "protocol".data)) ++
                "://".data ++ jsJoin ".".data hostParts
            let withPort :=
              if jsTruthyO (urlF.bind (fun u => getField u "port".data)) then
                base ++ ':' ::
                  jsCoerceStr (urlF.bind (fun u => getField u "port".data))
              else base
            match urlF.bind (fun u => getField u "path".data) with
            | Option.some (Json.arr pathParts) =>
                Option.some (withPort ++ '/' :: jsJoin "/".data pathParts)
            | Option.some p =>
                if jsTruthy p then Option.none else Option.some withPort
            | Option.none => Option.some withPort
        | _ => Option.none
      else Option.some []

/-- The header extraction loop of `parsePostmanRequest`: keep the entries
with truthy `key` and `value` and falsy `disabled`, in order, last write
wins.  `none` models the `TypeError` of a property access on a `null`
array element. -/
def postmanHeadersOf (request : Json) : Option Headers :=
  match getField request "header".data with
  | Option.some (Json.arr entries) =>
      entries.foldl
        (fun acc h =>
          match acc with
          | Option.none => Option.none
          | Option.some hs =>
              match h with
              | Json.null => Option.none
              | _ =>
                  if jsTruthyO (getField h "key".data) ∧
                      jsTruthyO (getField h "value".data) ∧
                      ¬ jsTruthyO (getField h "disabled".data) then
                    Option.some (hset (jsCoerceStr (getField h "key".data))
                      (jsCoerceStr (getField h "value".data)) hs)
                  else Option.some hs)
        (Option.some [])
  | _ => Option.some []

/-- The `formdata` filter of `parsePostmanRequest` followed by the
coercions later applied by `buildRequestSpec`: keep entries whose
`disabled` is falsy, as (coerced key, `value || ''`) pairs.  `none` models
a `TypeError` on a `null` entry. -/
def postmanFormdataOf (items : List Json) : Option (List (List Char × List Char)) :=
  items.foldr
    (fun it acc =>
      match acc with
      | Option.none => Option.none
      | Option.some rest =>
          match it with
          | Json.null => Option.none
          | _ =>
              if ¬ jsTruthyO (getField it "disabled".data) then
                let v := getField it "value".data
                Option.some ((jsCoerceStr (getField it "key".data),
                  if jsTruthyO v then jsCoerceStr v else []) :: rest)
              else Option.some rest)
    (Option.some [])

/-- `parsePostmanRequest` from parsers/postman.ts.  `none` models the
`return null` paths (falsy `request`, or any internal `TypeError` caught
by the function's `catch`). -/
def parsePostmanRequest (item : Json) : Option PRequest :=
  match getField item "request".data with
  | Option.none => Option.none
  | Option.some request =>
      if ¬ jsTruthy request then Option.none
      else
        match postmanUrlOf request with
        | Option.none => Option.none
        | Option.some url =>
            match postmanHeadersOf request with
            | Option.none => Option.none
            | Option.some headers =>
                let methodF := getField request "method".data
                let methodResult : Option (List Char) :=
                  if jsTruthyO methodF then
                    match methodF with
                    | Option.some (Json.str s) => Option.some (toUpperStr s)
                    | _ => Option.none
                  else Option.some "GET".data
                match methodResult with
                | Option.none => Option.none
                | Option.some method =>
                    let nameF := getField item "name".data
                    let name :=
                      if jsTruthyO nameF then jsCoerceStr nameF
                      else method ++ ' ' :: url
                    let idGiven :=
                      if jsTruthyO (getField item "id".data) then
                        Option.some (jsCoerceStr (getField item "id".data))
                      else Option.none
                    let bodyF := getField request "body".data
                    let bodyDone : Option
                        (Option (List Char) × Option (List Char) ×
                          Option (List (List Char × List Char))) :=
                      if jsTruthyO bodyF then
                        let mode :=
                          if jsTruthyO (bodyF.bind (fun b => getField b "mode".data)) then
                            jsCoerceStr (bodyF.bind (fun b => getField b "mode".data))
                          else "raw".data
                        let raw :=
                          if jsTruthyO (bodyF.bind (fun b => getField b "raw".data)) then
                            Option.some
                              (jsCoerceStr (bodyF.bind (fun b => getField b "raw".data)))
                          else Option.none
                        match bodyF.bind (fun b => getField b "formdata".data) with
                        | Option.some (Json.arr items) =>
                            (postmanFormdataOf items).map
                              (fun fd => (Option.some mode, raw, Option.some fd))
                        | _ => Option.some (Option.some mode, raw, Option.none)
                      else Option.some (Option.none, Option.none, Option.none)
                    match bodyDone with
                    | Option.none => Option.none
                    | Option.some (mode, raw, fd) =>
                        Option.some
                          { idGiven := idGiven
                            name := name
                            method := method
                            url := url
                            headers := headers
                            bodyMode := mode
                            bodyRaw := raw
                            bodyFormdata := fd
                            hasAuth := jsTruthyO (getField request "auth".data) }

/-- `extractPostmanRequests` from parsers/postman.ts: the depth-first
`for (const item of items)` traversal, fuel-indexed so that the definition
computes (one unit of fuel per processed item or folder descent; the
top-level caller supplies fuel exceeding the total item count of any
parsed input).  `none` models a thrown `TypeError` (propagating to the
collection-level `catch`).  -/
def extractPostmanRequestsF : Nat → List Json → Option (List PRequest)
  | 0, _ => Option.none
  | Nat.succ _, [] => Option.some []
  | Nat.succ fuel, item :: rest =>
      -- `item.request` on a null element throws
      match item with
      | Json.null => Option.none
      | _ =>
          let fromThis : Option (List PRequest) :=
            if jsTruthyO (getField item "request".data) then
              match parsePostmanRequest item with
              | Option.some r => Option.some [r]
              | Option.none => Option.some []
            else if jsTruthyO (getField item "item".data) then
              match iterElems ((getField item "item".data).getD Json.null) with
              | Option.none => Option.none
              | Option.some inner => extractPostmanRequestsF fuel inner
            else Option.some []
          match fromThis with
          | Option.none => Option.none
          | Option.some rs =>
              (extractPostmanRequestsF fuel rest).map (fun more => rs ++ more)

/-- A parsed Postman collection (interface `PostmanCollection`). -/
structure PostmanCollection where
  name : List Char
  description : Option Json
  requests : List PRequest
  auth : Option Json
  deriving DecidableEq

/-- `parsePostmanCollection` from parsers/postman.ts.  `none` models every
thrown error (invalid JSON, missing `info.name`, traversal `TypeError`).
The fuel passed to the folder recursion is the content length, which
exceeds any folder nesting depth representable in the input. -/
def parsePostmanCollection (content : List Char) : Option PostmanCollection :=
  match parseJson content with
  | Option.none => Option.none
  | Option.some data =>
      let info := getField data "info".data
      if ¬(jsTruthyO info ∧ jsTruthyO (info.bind (fun i => getField i "name".data))) then
        Option.none
      else
        let itemsF := jsOr (getField data "item".data) (Option.some (Json.arr []))
        match iterElems (itemsF.getD (Json.arr [])) with
        | Option.none => Option.none
        | Option.some items =>
            match extractPostmanRequestsF (content.length + 1) items with
            | Option.none => Option.none
            | Option.some requests =>
                Option.some
                  { name := jsCoerceStr (info.bind (fun i => getField i "name".data))
                    description := info.bind (fun i => getField i "description".data)
                    requests := requests
                    auth := getField data "auth".data }

/-!
## OpenAPI schema example generation (parsers/openapi.ts):
`resolveSchemaRef` and `generateExampleFromSchema`
-/

/-- The circular-reference placeholder object returned by
`resolveSchemaRef` (`{ type: 'object', description: 'Circular reference
to ${ref}' }`). -/
def circularPlaceholder (ref : Json) : Json :=
  Json.obj
    [("type".data, Json.str "object".data),
     ("description".data,
       Json.str ("Circular reference to ".data ++ jsCoerceStr (Option.some ref)))]

/-- The `for (const segment of path)` walk of `resolveSchemaRef`: property
steps through the spec document; a failed guard yields JS `null` (which
also fails every later guard, so propagating `null` is equivalent to the
source's early return). -/
def walkPath (spec : Json) : List (List Char) → Json → Json
  | [], current => current
  | seg :: rest, current =>
      if jsTruthy current ∧ jsIsObjectType current ∧ jsHasProp current seg then
        walkPath spec rest ((jsGetProp current seg).getD Json.null)
      else Json.null

/-- `resolveSchemaRef` from parsers/openapi.ts, fuel-indexed.  The visited
set (mutated in place in the source and passed along the chain) is modelled
by consing the current ref.  Results: `none` is fuel exhaustion (never
reached from sufficient fuel, see the termination theorem),
`some (Except.error ())` models the `TypeError` thrown by
`ref.startsWith` on a non-string ref, `some (Except.ok v)` is a returned
value (`Json.null` for the source's `return null`). -/
def resolveSchemaRefF : Nat → Json → Json → List Json → Option (Except Unit Json)
  | 0, _, _, _ => Option.none
  | Nat.succ fuel, ref, spec, visited =>
      if ref ∈ visited then Option.some (Except.ok (circularPlaceholder ref))
      else
        match ref with
        | Json.str s =>
            if ¬ ("#/".data.isPrefixOf s) then Option.some (Except.ok Json.null)
            else
              let path := (s.drop 2).splitOn '/'
              let current := walkPath spec path spec
              if jsTruthy current ∧ jsIsObjectType current ∧
                  jsTruthyO (getField current "$ref".data) then
                resolveSchemaRefF fuel ((getField current "$ref".data).getD Json.null)
                  spec (ref :: visited)
              else Option.some (Except.ok current)
        | _ => Option.some (Except.error ())

/-- Result of the fuel-indexed `generateExampleFromSchema`: a returned
value (`Json.null` models the JS `null` result) together with the visited
set as mutated by the call, a propagated `TypeError`, or fuel exhaustion. -/
inductive GenRes where
  | ok (v : Json) (visited : List Json)
  | err
  | fuelOut
  deriving DecidableEq

/-- `schema.enum && schema.enum.length > 0` followed by `schema.enum[0]`:
first element of an array or first character of a string (other values
have no positive `length` in the modelled inputs). -/
def enumFirst (enumF : Option Json) : Option Json :=
  match enumF with
  | Option.some (Json.arr (x :: _)) => Option.some x
  | Option.some (Json.str (c :: _)) => Option.some (Json.str [c])
  | _ => Option.none

mutual

/-- `generateExampleFromSchema` from parsers/openapi.ts, fuel-indexed.
The in-place growth of the `visited` set across recursive calls is
modelled by threading the returned visited list. -/
def generateExampleFromSchemaF : Nat → Json → Json → List Json → GenRes
  | 0, _, _, _ => GenRes.fuelOut
  | Nat.succ fuel, schema, spec, visited =>
      if ¬(jsTruthy schema ∧ jsIsObjectType schema) then
        GenRes.ok Json.null visited
      else
        if jsTruthyO (getField schema "$ref".data) then
          if (getField schema "$ref".data).getD Json.null ∈ visited then
            GenRes.ok Json.null visited
          else
            match resolveSchemaRefF fuel
                ((getField schema "$ref".data).getD Json.null) spec visited with
            | Option.none => GenRes.fuelOut
            | Option.some (Except.error _) => GenRes.err
            | Option.some (Except.ok resolved) =>
                if jsTruthy resolved then
                  generateExampleFromSchemaF fuel resolved spec
                    ((getField schema "$ref".data).getD Json.null :: visited)
                else GenRes.ok Json.null visited
        else
          match getField schema "example".data with
          | Option.some ex => GenRes.ok ex visited
          | Option.none =>
              match getField schema "type".data with
              | Option.some (Json.str ty) =>
                  if ty = "string".data then
                    GenRes.ok
                      (match enumFirst (getField schema "enum".data) with
                       | Option.some e => e
                       | Option.none =>
                           if getField schema "format".data =
                               Option.some (Json.str "email".data) then
                             Json.str "user@example.com".data
                           else if getField schema "format".data =
                               Option.some (Json.str "date".data) then
                             Json.str "2024-01-01".data
                           else if getField schema "format".data =
                               Option.some (Json.str "date-time".data) then
                             Json.str "2024-01-01T00:00:00Z".data
                           else if getField schema "format".data =
                               Option.some (Json.str "uuid".data) then
                             Json.str "550e8400-e29b-41d4-a716-446655440000".data
                           else if jsTruthyO (getField schema "pattern".data) then
                             Json.str "example".data
                           else Json.str "string".data)
                      visited
                  else if ty = "number".data ∨ ty = "integer".data then
                    GenRes.ok
                      (match enumFirst (getField schema "enum".data) with
                       | Option.some e => e
                       | Option.none =>
                           match getField schema "minimum".data with
                           | Option.some m => m
                           | Option.none => Json.num "0".data)
                      visited
                  else if ty = "boolean".data then
                    GenRes.ok (Json.bool true) visited
                  else if ty = "array".data then
                    if jsTruthyO (getField schema "items".data) then
                      match generateExampleFromSchemaF fuel
                          ((getField schema "items".data).getD Json.null) spec visited with
                      | GenRes.fuelOut => GenRes.fuelOut
                      | GenRes.err => GenRes.err
                      | GenRes.ok item vis2 =>
                          if item ≠ Json.null then GenRes.ok (Json.arr [item]) vis2
                          else GenRes.ok (Json.arr []) vis2
                    else GenRes.ok (Json.arr []) visited
                  else if ty = "object".data then
                    match genPropsF fuel
                        (if jsTruthyO (getField schema "properties".data) then
                          jsEntries ((getField schema "properties".data).getD Json.null)
                        else []) spec visited [] with
                    | GenRes.fuelOut => GenRes.fuelOut
                    | GenRes.err => GenRes.err
                    | GenRes.ok built vis2 =>
                        match genRequiredF fuel
                            (match getField schema "required".data with
                             | Option.some (Json.arr rs) =>
                                 if jsTruthy
                                     ((getField schema "required".data).getD Json.null)
                                 then rs else []
                             | _ => [])
                            ((getField schema "properties".data).getD Json.null)
                            (jsTruthyO (getField schema "properties".data)) spec vis2
                            (match built with | Json.obj fs => fs | _ => []) with
                        | GenRes.fuelOut => GenRes.fuelOut
                        | GenRes.err => GenRes.err
                        | GenRes.ok final vis3 =>
                            match final with
                            | Json.obj fs =>
                                if fs.length > 0 then GenRes.ok (Json.obj fs) vis3
                                else GenRes.ok Json.null vis3
                            | _ => GenRes.ok Json.null vis3
                  else GenRes.ok Json.null visited
              | _ => GenRes.ok Json.null visited

/-- The `for (const [propName, propSchema] of Object.entries(...))` loop
of the object case: generate each property example in order, threading the
visited set, keeping the non-null results. -/
def genPropsF : Nat → List (List Char × Json) → Json → List Json →
    List (List Char × Json) → GenRes
  | _, [], _, visited, acc => GenRes.ok (Json.obj acc) visited
  | fuel, (k, v) :: rest, spec, visited, acc =>
      match generateExampleFromSchemaF fuel v spec visited with
      | GenRes.fuelOut => GenRes.fuelOut
      | GenRes.err => GenRes.err
      | GenRes.ok ex vis2 =>
          if ex ≠ Json.null then genPropsF fuel rest spec vis2 (objSet acc k ex)
          else genPropsF fuel rest spec vis2 acc

/-- The `for (const requiredProp of schema.required)` loop: force-fill
missing required properties (falling back to the `'required_value'`
literal), threading the visited set. -/
def genRequiredF : Nat → List Json → Json → Bool → Json → List Json →
    List (List Char × Json) → GenRes
  | _, [], _, _, _, visited, acc => GenRes.ok (Json.obj acc) visited
  | fuel, rq :: rest, properties, propsTruthy, spec, visited, acc =>
      if ¬ (acc.any (fun f => f.1 = jsToString rq)) ∧ propsTruthy ∧
          jsTruthyO (jsGetProp properties (jsToString rq)) then
        match generateExampleFromSchemaF fuel
            ((jsGetProp properties (jsToString rq)).getD Json.null) spec visited with
        | GenRes.fuelOut => GenRes.fuelOut
        | GenRes.err => GenRes.err
        | GenRes.ok ex vis2 =>
            if ex ≠ Json.null then
              genRequiredF fuel rest properties propsTruthy spec vis2
                (objSet acc (jsToString rq) ex)
            else
              genRequiredF fuel rest properties propsTruthy spec vis2
                (objSet acc (jsToString rq) (Json.str "required_value".data))
      else genRequiredF fuel rest properties propsTruthy spec visited acc

end

/-!
## Size and ref-set measures for the termination theorem
-/

/-- Structure size of a JSON value (counting string/number payload
lengths), used as the second component of the termination measure. -/
def jsize : Json → Nat
  | Json.null => 1
  | Json.bool _ => 1
  | Json.num raw => 1 + raw.length
  | Json.str s => 1 + s.length
  | Json.arr xs => 2 + xs.length + (xs.attach.map (fun x => jsize x.1)).sum
  | Json.obj fs => 2 + fs.length + (fs.attach.map (fun f => jsize f.1.2)).sum
decreasing_by
  · have := List.sizeOf_lt_of_mem x.2
    simp at *
    omega
  · have := List.sizeOf_lt_of_mem f.2
    rcases f with ⟨⟨k, v⟩, hm⟩
    simp at *
    omega

/-- All values of `"$ref"` fields occurring anywhere in a JSON tree: the
universe of refs that the visited sets can accumulate. -/
def refSet : Json → Finset Json
  | Json.null => ∅
  | Json.bool _ => ∅
  | Json.num _ => ∅
  | Json.str _ => ∅
  | Json.arr xs => (xs.attach.map (fun x => refSet x.1)).foldr (· ∪ ·) ∅
  | Json.obj fs =>
      (fs.attach.map (fun f =>
        (if f.1.1 = "$ref".data then {f.1.2} else ∅) ∪ refSet f.1.2)).foldr
        (· ∪ ·) ∅
decreasing_by
  · have := List.sizeOf_lt_of_mem x.2
    simp at *
    omega
  · have := List.sizeOf_lt_of_mem f.2
    rcases f with ⟨⟨k, v⟩, hm⟩
    simp at *
    omega

/-- The number of refs of the universe of `spec` and `schema` not yet
visited. -/
def refsLeft (schema spec : Json) (visited : List Json) : Nat :=
  ((refSet spec ∪ refSet schema).filter (fun r => r ∉ visited)).card

/-- Fuel bound for `generateExampleFromSchemaF`: linear in the number of
unvisited refs, with a per-ref budget covering the spec size (resolution
results are bounded by it) and a constant for the circular-reference
placeholder. -/
def genFuelBound (schema spec : Json) (visited : List Json) : Nat :=
  (refsLeft schema spec visited + 1) * (9 * jsize spec + 60) + jsize schema + 1

/-- The query/fragment suffix of the idempotence property
(`url + "?x=1#y"`). -/
def qsuf : List Char := "?x=1#y".data

/-!
## Transcriptions of claimed characterizations

The following definitions follow the wording of spec claims (not the
source); they exist to be compared against the source-derived functions
above.
-/

/-- Claimed secret condition (spec wording): keyword in lowercased key, or
a 20-or-more-character value over `[a-zA-Z0-9_\-.]`. -/
def claimedSecretCondition (key value : List Char) : Bool :=
  sensitiveKeywords.any (fun kw => containsSub (toLowerStr key) kw) ∨
    (value.length ≥ 20 ∧ value.all isTokenChar)

/-- Claimed environment-detection condition (spec wording): JSON with a
string `name` and an array `values`, scope tag `"environment"` or a string
`_postman_exported_at`, and a filename containing `environment` or `env`. -/
def claimedEnvCondition (content fileName : List Char) : Bool :=
  match parseJson content with
  | Option.none => false
  | Option.some data =>
      (match getField data "name".data with
       | Option.some (Json.str _) => true
       | _ => false) &&
      (match getField data "values".data with
       | Option.some (Json.arr _) => true
       | _ => false) &&
      (decide (getField data "_postman_variable_scope".data =
         Option.some (Json.str "environment".data)) ||
       (match getField data "_postman_exported_at".data with
        | Option.some (Json.str _) => true
        | _ => false)) &&
      (containsSub (toLowerStr fileName) "environment".data ||
       containsSub (toLowerStr fileName) "env".data)

/-- Claimed YAML-message condition (spec wording): at least two YAML
heuristics match and the trimmed content does not start with `{` or `[`. -/
def claimedYamlCondition (content : List Char) : Bool :=
  yamlIndicatorCount content ≥ 2 ∧ ¬ hasJsonIndicators content

/-!
## Theorems
-/

theorem hget_cons (a : List Char × List Char) (t : Headers) (k : List Char) :
    hget k (a :: t) = if a.1 = k then Option.some a.2 else hget k t := by
  by_cases h : a.1 = k <;> simp [hget, List.find?_cons, h]

theorem hdel_cons (d : List Char) (a : List Char × List Char) (t : Headers) :
    hdel d (a :: t) = if a.1 = d then hdel d t else a :: hdel d t := by
  by_cases h : a.1 = d <;> simp [hdel, List.filter_cons, h]

theorem hget_hdel_self (d : List Char) (hs : Headers) :
    hget d (hdel d hs) = Option.none := by
  induction hs with
  | nil => rfl
  | cons a t ih =>
      rw [hdel_cons]
      by_cases h : a.1 = d
      · rw [if_pos h]; exact ih
      · rw [if_neg h, hget_cons, if_neg h]; exact ih

theorem hget_hdel_ne (k d : List Char) (hs : Headers) (h : k ≠ d) :
    hget k (hdel d hs) = hget k hs := by
  induction hs with
  | nil => rfl
  | cons a t ih =>
      rw [hdel_cons, hget_cons]
      by_cases h1 : a.1 = d
      · have h2 : ¬ a.1 = k := by rw [h1]; exact fun hh => h hh.symm
        rw [if_pos h1, if_neg h2]; exact ih
      · rw [if_neg h1, hget_cons]
        by_cases h2 : a.1 = k
        · rw [if_pos h2, if_pos h2]
        · rw [if_neg h2, if_neg h2]; exact ih

theorem hget_hset_self (k v : List Char) (hs : Headers) :
    hget k (hset k v hs) = Option.some v := by
  unfold hset
  by_cases h : hs.any (fun p => p.1 = k)
  · rw [if_pos h]
    induction hs with
    | nil => simp at h
    | cons a t ih =>
        by_cases h1 : a.1 = k
        · simp only [List.map_cons, if_pos h1]
          rw [hget_cons]
          simp
        · simp only [List.map_cons, if_neg h1]
          rw [hget_cons]
          rw [if_neg h1]
          apply ih
          rw [List.any_cons] at h
          simpa [h1] using h
  · rw [if_neg h]
    induction hs with
    | nil => simp [hget, List.find?_cons]
    | cons a t ih =>
        simp only [List.cons_append]
        rw [hget_cons]
        rw [List.any_cons] at h
        have h1 : ¬ a.1 = k := by
          intro hh
          exact h (by simp [hh])
        have h2 : ¬ (t.any fun p => p.1 = k) = true := by
          intro hh
          exact h (by simp [hh])
        rw [if_neg h1]
        exact ih h2

theorem hget_hset_ne (q k v : List Char) (hs : Headers) (h : q ≠ k) :
    hget q (hset k v hs) = hget q hs := by
  unfold hset
  by_cases hany : hs.any (fun p => p.1 = k)
  · rw [if_pos hany]
    clear hany
    induction hs with
    | nil => rfl
    | cons a t ih =>
        by_cases h1 : a.1 = k
        · have h2 : ¬ ((k, v).1 = q) := fun hh => h hh.symm
          have h3 : ¬ a.1 = q := by rw [h1]; exact fun hh => h hh.symm
          simp only [List.map_cons, if_pos h1]
          rw [hget_cons, hget_cons, if_neg h2, if_neg h3]
          exact ih
        · simp only [List.map_cons, if_neg h1]
          rw [hget_cons, hget_cons]
          by_cases h2 : a.1 = q
          · rw [if_pos h2, if_pos h2]
          · rw [if_neg h2, if_neg h2]; exact ih
  · rw [if_neg hany]
    clear hany
    induction hs with
    | nil =>
        simp only [List.nil_append]
        rw [hget_cons]
        have h2 : ¬ (k, v).1 = q := fun hh => h hh.symm
        rw [if_neg h2]
    | cons a t ih =>
        simp only [List.cons_append]
        rw [hget_cons, hget_cons]
        by_cases h2 : a.1 = q
        · rw [if_pos h2, if_pos h2]
        · rw [if_neg h2, if_neg h2]; exact ih

/-- C7: for every request and every bearer AuthConfig with a nonempty
token, `applyAuthentication` yields headers without any of the exact keys
`X-API-Key`, `x-api-key`, `X-Auth-Token`, `x-auth-token`, with
`Authorization` equal to `"Bearer "` followed by the token, and with every
other key unchanged from the input. -/
theorem c7_bearer_replaces_conflicting_headers (request : PRequest) (cfg : AuthConfig)
    (htype : cfg.type = AuthType.bearer) (htok : jsTruthyS cfg.token = true) :
    hget "X-API-Key".data (applyAuthentication request cfg).headers = Option.none ∧
    hget "x-api-key".data (applyAuthentication request cfg).headers = Option.none ∧
    hget "X-Auth-Token".data (applyAuthentication request cfg).headers = Option.none ∧
    hget "x-auth-token".data (applyAuthentication request cfg).headers = Option.none ∧
    hget "Authorization".data (applyAuthentication request cfg).headers =
      Option.some ("Bearer ".data ++ cfg.token.getD []) ∧
    ∀ k, k ≠ "X-API-Key".data → k ≠ "x-api-key".data → k ≠ "X-Auth-Token".data →
      k ≠ "x-auth-token".data → k ≠ "Authorization".data →
      hget k (applyAuthentication request cfg).headers = hget k request.headers := by
  have hh : (applyAuthentication request cfg).headers =
      hset "Authorization".data ("Bearer ".data ++ cfg.token.getD [])
        (hdel "x-auth-token".data (hdel "X-Auth-Token".data
          (hdel "x-api-key".data (hdel "X-API-Key".data request.headers)))) := by
    simp [applyAuthentication, applyAuthHeaders, htype, htok]
  rw [hh]
  refine ⟨?_, ?_, ?_, ?_, ?_, ?_⟩
  · rw [hget_hset_ne _ _ _ _ (by decide),
      hget_hdel_ne _ _ _ (by decide), hget_hdel_ne _ _ _ (by decide),
      hget_hdel_ne _ _ _ (by decide), hget_hdel_self]
  · rw [hget_hset_ne _ _ _ _ (by decide),
      hget_hdel_ne _ _ _ (by decide), hget_hdel_ne _ _ _ (by decide),
      hget_hdel_self]
  · rw [hget_hset_ne _ _ _ _ (by decide),
      hget_hdel_ne _ _ _ (by decide), hget_hdel_self]
  · rw [hget_hset_ne _ _ _ _ (by decide), hget_hdel_self]
  · rw [hget_hset_self]
  · intro k k1 k2 k3 k4 k5
    rw [hget_hset_ne _ _ _ _ k5, hget_hdel_ne _ _ _ k4, hget_hdel_ne _ _ _ k3,
      hget_hdel_ne _ _ _ k2, hget_hdel_ne _ _ _ k1]

/-- Witness for C7 (scenario 4 of the spec): bearer token `T1` applied to
a request carrying `X-API-Key: K`. -/
theorem c7_bearer_replaces_conflicting_headers_witness :
    ({ type := AuthType.bearer, token := Option.some "T1".data : AuthConfig }.type =
      AuthType.bearer) ∧
    jsTruthyS ({ type := AuthType.bearer, token := Option.some "T1".data : AuthConfig }.token) = true ∧
    hget "X-API-Key".data
      (applyAuthentication
        { method := "GET".data, url := "/a".data,
          headers := [("X-API-Key".data, "K".data)] }
        { type := AuthType.bearer, token := Option.some "T1".data }).headers =
      Option.none ∧
    hget "Authorization".data
      (applyAuthentication
        { method := "GET".data, url := "/a".data,
          headers := [("X-API-Key".data, "K".data)] }
        { type := AuthType.bearer, token := Option.some "T1".data }).headers =
      Option.some "Bearer T1".data := by
  have h := c7_bearer_replaces_conflicting_headers
    { method := "GET".data, url := "/a".data,
      headers := [("X-API-Key".data, "K".data)] }
    { type := AuthType.bearer, token := Option.some "T1".data }
    rfl (by decide)
  exact ⟨rfl, by decide, h.1, h.2.2.2.2.1⟩

/-- C10: when the required credential fields of an apikey, bearer, basic
or custom config are missing or empty, `applyAuthentication` leaves the
header map exactly equal to the input's (nothing set, nothing deleted). -/
theorem c10_missing_credentials_leave_headers (request : PRequest) (cfg : AuthConfig)
    (h : (cfg.type = AuthType.apikey ∧
            ¬(jsTruthyS cfg.key = true ∧ jsTruthyS cfg.value = true)) ∨
         (cfg.type = AuthType.bearer ∧ jsTruthyS cfg.token = false) ∨
         (cfg.type = AuthType.basic ∧
            ¬(jsTruthyS cfg.username = true ∧ jsTruthyS cfg.password = true)) ∨
         (cfg.type = AuthType.custom ∧
            ¬(jsTruthyS cfg.header = true ∧ jsTruthyS cfg.value = true))) :
    (applyAuthentication request cfg).headers = request.headers := by
  rcases h with ⟨ht, hc⟩ | ⟨ht, hc⟩ | ⟨ht, hc⟩ | ⟨ht, hc⟩ <;>
    simp [applyAuthentication, applyAuthHeaders, ht, hc]

/-- Witness for C10: a bearer config without a token. -/
theorem c10_missing_credentials_leave_headers_witness :
    (applyAuthentication
      { method := "GET".data, url := "/a".data,
        headers := [("X-API-Key".data, "K".data)] }
      { type := AuthType.bearer }).headers =
      [("X-API-Key".data, "K".data)] := by
  have h := c10_missing_credentials_leave_headers
    { method := "GET".data, url := "/a".data,
      headers := [("X-API-Key".data, "K".data)] }
    { type := AuthType.bearer }
    (Or.inr (Or.inl ⟨rfl, by decide⟩))
  exact h

/-- C8: heap-level `applyAuthentication` is pure and non-mutating: the
returned request's header map lives at a fresh address (reference
inequality), every pre-existing heap cell — in particular the input's
header map — is unchanged (deep equality of the original), and the fresh
cell's contents are the deterministic function `applyAuthHeaders` of the
inputs (so two calls with the same inputs yield structurally identical
header maps). -/
theorem c8_applyAuthentication_pure_and_nonmutating (heap : List Headers)
    (request : HRequest) (cfg : AuthConfig) (h : request.headersRef < heap.length) :
    (applyAuthenticationHeap heap request cfg).2.headersRef ≠ request.headersRef ∧
    ((applyAuthenticationHeap heap request cfg).1.get? request.headersRef =
      heap.get? request.headersRef) ∧
    (∀ a, a < heap.length →
      (applyAuthenticationHeap heap request cfg).1.get? a = heap.get? a) ∧
    (applyAuthenticationHeap heap request cfg).1.get?
        (applyAuthenticationHeap heap request cfg).2.headersRef =
      Option.some (applyAuthHeaders (heap.getD request.headersRef []) cfg) := by
  refine ⟨?_, ?_, ?_, ?_⟩
  · simp [applyAuthenticationHeap]
    omega
  · simp [applyAuthenticationHeap]
    rw [List.getElem?_append_left h]
  · intro a ha
    simp [applyAuthenticationHeap]
    rw [List.getElem?_append_left ha]
  · simp [applyAuthenticationHeap]

/-- Witness for C8: a one-cell heap. -/
theorem c8_applyAuthentication_pure_and_nonmutating_witness :
    (applyAuthenticationHeap [[("A".data, "1".data)]]
        { method := "GET".data, url := "/a".data, headersRef := 0 }
        { type := AuthType.none }).2.headersRef ≠ 0 ∧
    (applyAuthenticationHeap [[("A".data, "1".data)]]
        { method := "GET".data, url := "/a".data, headersRef := 0 }
        { type := AuthType.none }).1.get? 0 = Option.some [("A".data, "1".data)] := by
  have h := c8_applyAuthentication_pure_and_nonmutating [[("A".data, "1".data)]]
    { method := "GET".data, url := "/a".data, headersRef := 0 }
    { type := AuthType.none } (by decide)
  refine ⟨h.1, ?_⟩
  rw [h.2.1]
  rfl

/-- C4 counterexample: a 20-character token-like value with a
non-sensitive key is not marked secret by the code, though the claimed
20+-character condition holds. -/
theorem c4_counterexample :
    shouldBeSecret "id".data "abcdefghij0123456789".data = false ∧
    claimedSecretCondition "id".data "abcdefghij0123456789".data = true := by
  decide

/-- C4 (amended): `shouldBeSecret` is true exactly when the lowercased key
contains one of the sensitive keywords, or the value is a twenty-one-or-
more-character string over `[a-zA-Z0-9_\-.]` (the source conjoins the
`{20,}` pattern with `value.length > 20`). -/
theorem c4_secret_inference_characterization (key value : List Char) :
    shouldBeSecret key value = true ↔
      ((∃ kw ∈ sensitiveKeywords, containsSub (toLowerStr key) kw = true) ∨
        (value.length > 20 ∧ ∀ c ∈ value, isTokenChar c = true)) := by
  simp only [shouldBeSecret, Bool.or_eq_true, Bool.and_eq_true,
    List.any_eq_true, List.all_eq_true, decide_eq_true_eq, ge_iff_le]
  constructor
  · rintro (⟨kw, hkw, hc⟩ | ⟨⟨h20, hall⟩, h21⟩)
    · exact Or.inl ⟨kw, hkw, hc⟩
    · exact Or.inr ⟨h21, hall⟩
  · rintro (⟨kw, hkw, hc⟩ | ⟨h21, hall⟩)
    · exact Or.inl ⟨kw, hkw, hc⟩
    · exact Or.inr ⟨⟨by omega, hall⟩, h21⟩

/-- C5 counterexample: an environment export whose `name` is the empty
string (a string nonetheless) is rejected by the code's truthiness check,
though the claimed characterization accepts it. -/
theorem c5_counterexample :
    isPostmanEnvironment
      "\x7b\"name\":\"\",\"values\":[],\"_postman_variable_scope\":\"environment\"\x7d".data
      "env.json".data = false ∧
    claimedEnvCondition
      "\x7b\"name\":\"\",\"values\":[],\"_postman_variable_scope\":\"environment\"\x7d".data
      "env.json".data = true := by
  decide

/-- C5 (amended): `isPostmanEnvironment` returns true exactly when the
content parses as JSON with a nonempty-string `name`, an array `values`,
the `environment` scope tag or a nonempty-string `_postman_exported_at`,
and a filename containing `environment` or `env` (the filename condition
is mandatory). -/
theorem c5_environment_detection_characterization (content fileName : List Char) :
    isPostmanEnvironment content fileName = true ↔
      ∃ data, parseJson content = Option.some data ∧
        (∃ s, getField data "name".data = Option.some (Json.str s) ∧ s ≠ []) ∧
        (∃ xs, getField data "values".data = Option.some (Json.arr xs)) ∧
        (getField data "_postman_variable_scope".data =
            Option.some (Json.str "environment".data) ∨
          ∃ e, getField data "_postman_exported_at".data =
              Option.some (Json.str e) ∧ e ≠ []) ∧
        (containsSub (toLowerStr fileName) "environment".data = true ∨
          containsSub (toLowerStr fileName) "env".data = true) := by
  unfold isPostmanEnvironment
  cases hp : parseJson content with
  | none => simp
  | some data =>
      simp only [Option.some.injEq]
      constructor
      · intro h
        refine ⟨data, rfl, ?_⟩
        rcases hname : getField data "name".data with _ | nv
        · rw [hname] at h; simp at h
        · rcases nv with _ | b | r | s | xs | fs <;> rw [hname] at h <;> simp at h
          rcases hs : decide (s = []) with _ | _
          · have hs2 : s ≠ [] := by simpa using hs
            rcases hvals : getField data "values".data with _ | vv
            · rw [hvals] at h; simp [hs2] at h
            · rcases vv with _ | b2 | r2 | s2 | xs2 | fs2 <;> rw [hvals] at h <;>
                simp [hs2] at h
              refine ⟨⟨s, rfl, hs2⟩, ⟨xs2, rfl⟩, ?_⟩
              rcases h with ⟨hsc, hfn⟩
              constructor
              · rcases hsc with hsc | hsc
                · exact Or.inl hsc
                · rcases hexp : getField data "_postman_exported_at".data with _ | ev
                  · rw [hexp] at hsc; simp at hsc
                  · rcases ev with _ | b3 | r3 | s3 | xs3 | fs3 <;> rw [hexp] at hsc <;>
                      simp at hsc
                    exact Or.inr ⟨s3, rfl, hsc⟩
              · exact hfn
          · have hs2 : s = [] := by simpa using hs
            rw [hs2] at h; simp at h
      · rintro ⟨data2, hd2, ⟨s, hname, hs⟩, ⟨xs, hvals⟩, hsc, hfn⟩
        subst hd2
        rcases hsc with hsc | ⟨e, hexp, he⟩
        · rcases hfn with hfn | hfn <;> simp [hname, hvals, hs, hsc, hfn]
        · rcases hfn with hfn | hfn <;> simp [hname, hvals, hs, hexp, he, hfn]

/-- C3 counterexample: content that fails JSON parsing with zero YAML
content heuristics, in a `.yaml`-named file, gets the YAML-unsupported
message (from the filename extension), while the claimed characterization
requires two content heuristics. -/
theorem c3_counterexample :
    parseJson "hello".data = Option.none ∧
    (detectFileType "hello".data "a.yaml".data).details = FDetails.yamlUnsupported ∧
    claimedYamlCondition "hello".data = false := by
  decide

/-- C3 (amended): `detectFileType` never throws (it is a total function);
on every content that fails JSON parsing it returns type `unknown` with
confidence 0, carrying the YAML-unsupported message exactly when the
lowercased filename ends in `.yaml`/`.yml` or at least two YAML heuristics
match a content not starting with `{`/`[`, and the JSON-error message
otherwise. -/
theorem c3_unknown_on_parse_failure (content fileName : List Char)
    (h : parseJson content = Option.none) :
    (detectFileType content fileName).ftype = FType.unknown ∧
    (detectFileType content fileName).confidence = 0 ∧
    ((detectFileType content fileName).details = FDetails.yamlUnsupported ↔
      (".yaml".data.isSuffixOf (toLowerStr fileName) = true ∨
        ".yml".data.isSuffixOf (toLowerStr fileName) = true ∨
        claimedYamlCondition content = true)) ∧
    ((detectFileType content fileName).details = FDetails.invalidJson ↔
      ¬(".yaml".data.isSuffixOf (toLowerStr fileName) = true ∨
        ".yml".data.isSuffixOf (toLowerStr fileName) = true ∨
        claimedYamlCondition content = true)) := by
  have hyaml : isLikelyYAML content fileName =
      (".yaml".data.isSuffixOf (toLowerStr fileName) ||
        ".yml".data.isSuffixOf (toLowerStr fileName) ||
        claimedYamlCondition content) := by
    unfold isLikelyYAML claimedYamlCondition
    rcases h1 : ".yaml".data.isSuffixOf (toLowerStr fileName) with _ | _ <;>
      rcases h2 : ".yml".data.isSuffixOf (toLowerStr fileName) with _ | _ <;>
        simp [h1, h2]
  unfold detectFileType
  rw [h]
  simp only [hyaml]
  rcases hD : (".yaml".data.isSuffixOf (toLowerStr fileName) ||
      ".yml".data.isSuffixOf (toLowerStr fileName) ||
      claimedYamlCondition content) with _ | _
  · simp only [Bool.false_eq_true, if_false]
    simp only [Bool.or_eq_false_iff] at hD
    simp [hD.1.1, hD.1.2, hD.2]
  · simp only [if_true]
    simp only [Bool.or_eq_true] at hD
    simp at hD ⊢
    refine ⟨?_, ?_⟩
    · rcases hD with (hD | hD) | hD
      · exact Or.inl hD
      · exact Or.inr (Or.inl hD)
      · exact Or.inr (Or.inr hD)
    · intro h1 h2
      rcases hD with (hD | hD) | hD
      · exact absurd hD h1
      · exact absurd hD h2
      · exact hD

/-- Witness for C3: concrete parse failure going to the JSON-error message. -/
theorem c3_unknown_on_parse_failure_witness :
    parseJson "hello".data = Option.none ∧
    (detectFileType "hello".data "a.json".data).ftype = FType.unknown ∧
    (detectFileType "hello".data "a.json".data).details = FDetails.invalidJson := by
  refine ⟨by decide, (c3_unknown_on_parse_failure "hello".data "a.json".data (by decide)).1, ?_⟩
  exact (c3_unknown_on_parse_failure "hello".data "a.json".data (by decide)).2.2.2.mpr
    (by decide)

/-- C2 counterexample: the session name of the templated URL is not
`"GET /items/{{id}}"` as claimed. -/
theorem c2_counterexample :
    generateCompleteSessionName
      { method := "GET".data, url := "{{baseUrl}}/v1/items/{{id}}".data,
        headers := [] } ≠ "GET /items/{{id}}".data := by
  decide

/-- C2 (amended): spec building replaces every template with
`example.com` (host `example.com`, path `/v1/items/example.com`); the
name derivation takes everything after the last `}}` — here the empty
string — so the path collapses to `/` and the fallback reinstates the
original URL, yielding `"GET {{baseUrl}}/v1/items/{{id}}"`. -/
theorem c2_template_url_resolution :
    ((buildRequestSpec
        { method := "GET".data, url := "{{baseUrl}}/v1/items/{{id}}".data,
          headers := [] } Option.none).map
      (fun s => (s.host, s.path, s.port, s.tls)) =
      Option.some ("example.com".data, "/v1/items/example.com".data, 443, true)) ∧
    generateCompleteSessionName
      { method := "GET".data, url := "{{baseUrl}}/v1/items/{{id}}".data,
        headers := [] } = "GET {{baseUrl}}/v1/items/{{id}}".data := by
  exact ⟨by decide, by decide⟩

/-- C6 counterexample: the parsed request's name is the item's explicit
`"A"`, not the claimed default `"GET https://a.com/x?q=1"`. -/
theorem c6_counterexample :
    (parsePostmanCollection
        "\x7b\"info\":\x7b\"name\":\"X\"\x7d,\"item\":[\x7b\"name\":\"A\",\"request\":\x7b\"method\":\"get\",\"url\":\"https://a.com/x?q=1\"\x7d\x7d]\x7d".data).map
      (fun col => col.requests.map (fun r => r.name)) = Option.some ["A".data] ∧
    "A".data ≠ "GET https://a.com/x?q=1".data := by
  refine ⟨?_, by decide⟩
  decide

/-- C6 (amended): the collection parses to one request with method `GET`,
name `"A"` (the item's explicit name; the `"METHOD url"` default applies
only when `item.name` is absent), url `https://a.com/x?q=1`, and session
naming yields `"GET /x"`. -/
theorem c6_postman_scenario :
    ((parsePostmanCollection
        "\x7b\"info\":\x7b\"name\":\"X\"\x7d,\"item\":[\x7b\"name\":\"A\",\"request\":\x7b\"method\":\"get\",\"url\":\"https://a.com/x?q=1\"\x7d\x7d]\x7d".data).map
      (fun col => col.name) = Option.some "X".data) ∧
    ((parsePostmanCollection
        "\x7b\"info\":\x7b\"name\":\"X\"\x7d,\"item\":[\x7b\"name\":\"A\",\"request\":\x7b\"method\":\"get\",\"url\":\"https://a.com/x?q=1\"\x7d\x7d]\x7d".data).map
      (fun col => col.requests.map (fun r => (r.method, r.name, r.url))) =
      Option.some [("GET".data, "A".data, "https://a.com/x?q=1".data)]) ∧
    ((parsePostmanCollection
        "\x7b\"info\":\x7b\"name\":\"X\"\x7d,\"item\":[\x7b\"name\":\"A\",\"request\":\x7b\"method\":\"get\",\"url\":\"https://a.com/x?q=1\"\x7d\x7d]\x7d".data).map
      (fun col => col.requests.map generateCompleteSessionName) =
      Option.some ["GET /x".data]) := by
  refine ⟨by decide, by decide, by decide⟩

/-- C1 counterexample: appending `?x=1#y` changes the derived name when
the normalized path collapses to `/` (the fallback reinstates the original
URL including its query/fragment). -/
theorem c1_counterexample :
    generateCompleteSessionName
      { method := "GET".data, url := "http://a.com/".data, headers := [] } =
      "GET /".data ∧
    generateCompleteSessionName
      { method := "GET".data, url := "http://a.com/".data ++ "?x=1#y".data,
        headers := [] } = "GET /?x=1#y".data ∧
    ("GET /".data : List Char) ≠ "GET /?x=1#y".data := by
  decide

theorem splitCSS_cons (c : Char) (rest : List Char) :
    splitCSS (c :: rest) =
      if c = ':' ∧ rest.take 2 = ['/', '/'] then Option.some ([], rest.drop 2)
      else
        match splitCSS rest with
        | Option.some (b, a) => Option.some (c :: b, a)
        | Option.none => Option.none := rfl

theorem splitCSS_qsuf : splitCSS qsuf = Option.none := by decide

theorem splitCSS_append (u : List Char) :
    splitCSS (u ++ qsuf) =
      match splitCSS u with
      | Option.none => Option.none
      | Option.some (b, a) => Option.some (b, a ++ qsuf) := by
  induction u with
  | nil =>
      simp only [List.nil_append, splitCSS_qsuf]
      rfl
  | cons c rest ih =>
      simp only [List.cons_append]
      rw [splitCSS_cons, splitCSS_cons c rest]
      rcases rest with _ | ⟨d, _ | ⟨d2, t⟩⟩
      · have h1 : ¬(c = ':' ∧ (([] : List Char) ++ qsuf).take 2 = ['/', '/']) := by
          rintro ⟨_, h⟩; exact absurd h (by decide)
        have h2 : ¬(c = ':' ∧ ([] : List Char).take 2 = ['/', '/']) := by
          rintro ⟨_, h⟩; exact absurd h (by decide)
        rw [if_neg h1, if_neg h2]
        simp only [List.nil_append, splitCSS_qsuf]
        rfl
      · have h1 : ¬(c = ':' ∧ (([d] : List Char) ++ qsuf).take 2 = ['/', '/']) := by
          rintro ⟨_, h⟩
          have h2 := congrArg (fun l => l.drop 1) h
          simp [qsuf, List.take] at h2
        have h2 : ¬(c = ':' ∧ ([d] : List Char).take 2 = ['/', '/']) := by
          rintro ⟨_, h⟩
          have h3 := congrArg List.length h
          simp [List.take] at h3
        rw [if_neg h1, if_neg h2, ih]
        rcases splitCSS [d] with _ | ⟨b, a⟩ <;> rfl
      · have htake : ((d :: d2 :: t) ++ qsuf).take 2 = (d :: d2 :: t).take 2 := rfl
        by_cases hc : c = ':' ∧ (d :: d2 :: t).take 2 = ['/', '/']
        · have hc1 : c = ':' ∧ ((d :: d2 :: t) ++ qsuf).take 2 = ['/', '/'] := by
            rw [htake]; exact hc
          rw [if_pos hc1, if_pos hc]
          rfl
        · have hc1 : ¬(c = ':' ∧ ((d :: d2 :: t) ++ qsuf).take 2 = ['/', '/']) := by
            rw [htake]; exact hc
          rw [if_neg hc1, if_neg hc, ih]
          rcases splitCSS (d :: d2 :: t) with _ | ⟨b, a⟩ <;> rfl

theorem afterLastTpl_cons (c : Char) (rest : List Char) :
    afterLastTpl (c :: rest) =
      match afterLastTpl rest with
      | Option.some r => Option.some r
      | Option.none =>
          if c = '}' ∧ rest.take 1 = ['}'] then Option.some (rest.drop 1)
          else Option.none := rfl

theorem afterLastTpl_qsuf : afterLastTpl qsuf = Option.none := by decide

theorem afterLastTpl_append (u : List Char) :
    afterLastTpl (u ++ qsuf) =
      (afterLastTpl u).map (fun r => r ++ qsuf) := by
  induction u with
  | nil =>
      simp only [List.nil_append, afterLastTpl_qsuf]
      rfl
  | cons c rest ih =>
      simp only [List.cons_append]
      rw [afterLastTpl_cons, afterLastTpl_cons c rest, ih]
      rcases hr : afterLastTpl rest with _ | r
      · simp only [Option.map_none']
        rcases rest with _ | ⟨d, t⟩
        · have h1 : ¬(c = '}' ∧ (([] : List Char) ++ qsuf).take 1 = ['}']) := by
            rintro ⟨_, h⟩; exact absurd h (by decide)
          have h2 : ¬(c = '}' ∧ ([] : List Char).take 1 = ['}']) := by
            rintro ⟨_, h⟩; exact absurd h (by decide)
          rw [if_neg h1, if_neg h2]
          rfl
        · have htake : ((d :: t) ++ qsuf).take 1 = (d :: t).take 1 := rfl
          by_cases hc : c = '}' ∧ (d :: t).take 1 = ['}']
          · have hc1 : c = '}' ∧ ((d :: t) ++ qsuf).take 1 = ['}'] := by
              rw [htake]; exact hc
            rw [if_pos hc1, if_pos hc]
            rfl
          · have hc1 : ¬(c = '}' ∧ ((d :: t) ++ qsuf).take 1 = ['}']) := by
              rw [htake]; exact hc
            rw [if_neg hc1, if_neg hc]
            rfl
      · simp only [Option.map_some']

theorem takeWhile_append_of_stop (p : Char → Bool) (t s2 : List Char)
    (h : ∃ x ∈ t, p x = false) :
    (t ++ s2).takeWhile p = t.takeWhile p := by
  induction t with
  | nil => rcases h with ⟨x, hx, _⟩; simp at hx
  | cons c rest ih =>
      rcases hc : p c with _ | _
      · simp [List.takeWhile_cons, hc]
      · simp only [List.cons_append, List.takeWhile_cons, hc]
        rcases h with ⟨x, hx, hpx⟩
        rcases List.mem_cons.mp hx with hx | hx
        · rw [hx] at hpx; rw [hpx] at hc; cases hc
        · rw [ih ⟨x, hx, hpx⟩]

theorem takeWhile_append_of_all (p : Char → Bool) (t s2 : List Char)
    (h : ∀ x ∈ t, p x = true) :
    (t ++ s2).takeWhile p = t ++ s2.takeWhile p := by
  induction t with
  | nil => simp
  | cons c rest ih =>
      have hc : p c = true := h c (List.mem_cons_self c rest)
      simp only [List.cons_append, List.takeWhile_cons, hc, if_true]
      rw [ih (fun x hx => h x (List.mem_cons_of_mem c hx))]

theorem dropWhile_append_of_stop (p : Char → Bool) (t s2 : List Char)
    (h : ∃ x ∈ t, p x = false) :
    (t ++ s2).dropWhile p = t.dropWhile p ++ s2 := by
  induction t with
  | nil => rcases h with ⟨x, hx, _⟩; simp at hx
  | cons c rest ih =>
      rcases hc : p c with _ | _
      · simp [List.dropWhile_cons, hc]
      · simp only [List.cons_append, List.dropWhile_cons, hc, if_true]
        rcases h with ⟨x, hx, hpx⟩
        rcases List.mem_cons.mp hx with hx | hx
        · rw [hx] at hpx; rw [hpx] at hc; cases hc
        · exact ih ⟨x, hx, hpx⟩

theorem dropWhile_slash_head (t : List Char) (h : '/' ∈ t) :
    (t.dropWhile (fun c => c ≠ '/')).take 1 = ['/'] := by
  induction t with
  | nil => simp at h
  | cons c rest ih =>
      by_cases hc : c = '/'
      · simp [List.dropWhile_cons, hc]
      · simp only [List.dropWhile_cons]
        rw [if_pos (by simpa using hc)]
        rcases List.mem_cons.mp h with h1 | h1
        · exact absurd h1.symm hc
        · exact ih h1

theorem urlPartsOne_cases (u : List Char) :
    (urlPartsOne (u ++ qsuf) = Option.none ∧ urlPartsOne u = Option.none) ∨
    (∃ seg, urlPartsOne u = Option.some seg ∧
      urlPartsOne (u ++ qsuf) = Option.some seg) ∨
    (∃ seg, urlPartsOne u = Option.some seg ∧
      urlPartsOne (u ++ qsuf) = Option.some (seg ++ qsuf)) := by
  rcases hs : splitCSS u with _ | ⟨b, a⟩
  · left
    constructor
    · unfold urlPartsOne
      rw [splitCSS_append, hs]
    · unfold urlPartsOne
      rw [hs]
  · rcases hs2 : splitCSS a with _ | ⟨b2, a2⟩
    · right; right
      refine ⟨a, ?_, ?_⟩
      · simp [urlPartsOne, hs, hs2]
      · simp [urlPartsOne, splitCSS_append, hs, hs2]
    · right; left
      refine ⟨b2, ?_, ?_⟩
      · simp [urlPartsOne, hs, hs2]
      · simp [urlPartsOne, splitCSS_append, hs, hs2]

theorem take_one_append (t s2 : List Char) (h : t ≠ []) :
    (t ++ s2).take 1 = t.take 1 := by
  rcases t with _ | ⟨c, r⟩
  · exact absurd rfl h
  · rfl

theorem nameCaseStep_append (u : List Char) :
    nameCaseStep (u ++ qsuf) = nameCaseStep u ++ qsuf ∨
    nameCaseStep (u ++ qsuf) = nameCaseStep u ∨
    nameCaseStep (u ++ qsuf) = ['/'] := by
  rcases urlPartsOne_cases u with ⟨hn1, hn2⟩ | ⟨seg, h1, h2⟩ | ⟨seg, h1, h2⟩
  · -- no "://": template or relative cases
    unfold nameCaseStep
    rw [hn1, hn2, afterLastTpl_append]
    dsimp only
    rcases hp : afterLastTpl u with _ | pat
    · simp only [Option.map_none']
      rcases u with _ | ⟨c, t⟩
      · left
        decide
      · rw [take_one_append (c :: t) qsuf (by simp), List.cons_append]
        by_cases hc : (c :: t).take 1 = ['/']
        · rw [if_pos hc, if_pos hc]
          left; rfl
        · rw [if_neg hc, if_neg hc]
          left; rfl
    · simp only [Option.map_some']
      by_cases hpat : pat.take 1 = ['/']
      · have hne : pat ≠ [] := by
          intro h; rw [h] at hpat; exact absurd hpat (by decide)
        rw [if_pos hpat, if_pos (by rw [take_one_append pat qsuf hne]; exact hpat)]
        left; rfl
      · rcases pat with _ | ⟨d, t⟩
        · rw [if_neg hpat, if_neg (by decide)]
          left; rfl
        · rw [if_neg hpat,
            if_neg (by rw [take_one_append (d :: t) qsuf (by simp)]; exact hpat)]
          left; rfl
  · -- second "://" present: the middle segment is unchanged
    unfold nameCaseStep
    rw [h1, h2]
    dsimp only
    by_cases hseg : seg = []
    · subst hseg
      simp only [if_neg (show ¬(([] : List Char) ≠ []) from by simp)]
      left; trivial
    · simp only [if_pos (show seg ≠ [] from hseg)]
      right; left; trivial
  · -- the segment gains the suffix
    unfold nameCaseStep
    rw [h1, h2]
    dsimp only
    by_cases hseg : seg = []
    · subst hseg
      simp only [List.nil_append]
      rw [if_pos (show (qsuf : List Char) ≠ [] from by decide)]
      rw [if_neg (show ¬(([] : List Char) ≠ []) from by simp)]
      rw [if_neg (show ¬(('/' : Char) ∈ (qsuf : List Char)) from by decide)]
      right; right; rfl
    · have hseg2 : seg ++ qsuf ≠ [] := by
        intro h; exact hseg (List.append_eq_nil.mp h).1
      simp only [if_pos (show seg ≠ [] from hseg),
        if_pos (show seg ++ qsuf ≠ [] from hseg2)]
      by_cases hmem : '/' ∈ seg
      · simp only
          [if_pos (show ('/' : Char) ∈ seg ++ qsuf from List.mem_append_left qsuf hmem),
           if_pos (show ('/' : Char) ∈ seg from hmem)]
        left
        exact dropWhile_append_of_stop _ seg qsuf ⟨'/', hmem, by decide⟩
      · have hmem2 : ¬ ('/' : Char) ∈ seg ++ qsuf := by
          intro h
          rcases List.mem_append.mp h with h | h
          · exact hmem h
          · exact absurd h (by decide)
        simp only [if_neg hmem2, if_neg (show ¬(('/' : Char) ∈ seg) from hmem)]
        right; left; trivial

theorem nameCaseStep_head (u : List Char) :
    (nameCaseStep u).take 1 = ['/'] ∨ (nameCaseStep u = u ∧ u ≠ []) := by
  unfold nameCaseStep
  rcases hu : urlPartsOne u with _ | seg <;> dsimp only
  · rcases hp : afterLastTpl u with _ | pat <;> dsimp only
    · by_cases hc : u.take 1 = ['/']
      · rw [if_pos hc]; left; exact hc
      · rw [if_neg hc]; left; rfl
    · by_cases hpat : pat.take 1 = ['/']
      · rw [if_pos hpat]; left; exact hpat
      · rw [if_neg hpat]; left; rfl
  · by_cases hseg : seg = []
    · subst hseg
      simp only [if_neg (show ¬(([] : List Char) ≠ []) from by simp)]
      right
      refine ⟨by trivial, ?_⟩
      intro h
      subst h
      exact absurd hu (by decide)
    · simp only [if_pos (show seg ≠ [] from hseg)]
      by_cases hmem : '/' ∈ seg
      · simp only [if_pos (show ('/' : Char) ∈ seg from hmem)]
        left
        exact dropWhile_slash_head seg hmem
      · simp only [if_neg (show ¬(('/' : Char) ∈ seg) from hmem)]
        left; rfl

theorem stripQH_append (t : List Char) (hne : t ≠ []) (hq : t.take 1 ≠ ['?']) :
    stripHash (stripQuery (t ++ qsuf)) = stripHash (stripQuery t) := by
  have hqin : ('?' : Char) ∈ t ++ qsuf :=
    List.mem_append_right t (by decide)
  by_cases hq2 : ('?' : Char) ∈ t
  · rcases t with _ | ⟨c, r⟩
    · exact absurd rfl hne
    · have hc : c ≠ '?' := by
        intro h; rw [h] at hq; exact hq rfl
      have htw : ((c :: r) ++ qsuf).takeWhile (fun x => x ≠ '?') =
          (c :: r).takeWhile (fun x => x ≠ '?') :=
        takeWhile_append_of_stop _ _ _ ⟨'?', hq2, by simp⟩
      have hne2 : (c :: r).takeWhile (fun x => x ≠ '?') ≠ [] := by
        simp [List.takeWhile_cons, hc]
      unfold stripQuery
      rw [if_pos hqin, if_pos hq2, htw]
      dsimp only
      split
      · rfl
      · rename_i hcond
        exact absurd hne2 hcond
  · have htw : (t ++ qsuf).takeWhile (fun x => x ≠ '?') = t := by
      rw [takeWhile_append_of_all _ t qsuf (fun x hx => by
        simp
        intro h
        rw [h] at hx
        exact hq2 hx)]
      rw [show (qsuf : List Char).takeWhile (fun x => x ≠ '?') = [] from by decide]
      simp
    unfold stripQuery
    rw [if_pos hqin, if_neg hq2, htw]
    rw [if_pos (by simpa using hne)]

theorem normalizedPath_append (u : List Char) (hq : u.take 1 ≠ ['?']) :
    normalizedPath (u ++ qsuf) = normalizedPath u ∨
    normalizedPath (u ++ qsuf) = ['/'] := by
  rcases nameCaseStep_append u with h | h | h
  · left
    unfold normalizedPath
    rw [h]
    have hstep := nameCaseStep_head u
    rcases hstep with hstep | ⟨hstep, hne⟩
    · have hne : nameCaseStep u ≠ [] := by
        intro hh; rw [hh] at hstep; exact absurd hstep (by decide)
      have hq2 : (nameCaseStep u).take 1 ≠ ['?'] := by
        rw [hstep]; decide
      rw [stripQH_append _ hne hq2]
    · rw [stripQH_append _ (by rw [hstep]; exact hne) (by rw [hstep]; exact hq)]
  · left
    unfold normalizedPath
    rw [h]
  · right
    unfold normalizedPath
    rw [h]
    decide

/-- C1 (amended): session naming is idempotent under appending `?x=1#y`
for every request whose url does not itself begin with `?`, provided
neither url's normalized path collapses to the bare `/` (in the collapse
case the source's fallback reinstates the original url verbatim, query
and fragment included). -/
theorem c1_name_idempotent_under_query_fragment (request : PRequest)
    (hq : request.url.take 1 ≠ ['?'])
    (h1 : normalizedPath request.url ≠ ['/'])
    (h2 : normalizedPath (request.url ++ qsuf) ≠ ['/']) :
    generateCompleteSessionName { request with url := request.url ++ qsuf } =
      generateCompleteSessionName request := by
  have heq : normalizedPath (request.url ++ qsuf) = normalizedPath request.url :=
    (normalizedPath_append request.url hq).resolve_right h2
  unfold generateCompleteSessionName sessionPath
  simp only []
  rw [if_neg (by intro h; exact h2 h.1), if_neg (by intro h; exact h1 h.1), heq]

/-- Witness for C1: a plain absolute URL with an existing query. -/
theorem c1_name_idempotent_under_query_fragment_witness :
    ("https://a.com/api/users?q=1".data.take 1 ≠ ['?']) ∧
    normalizedPath "https://a.com/api/users?q=1".data ≠ ['/'] ∧
    normalizedPath ("https://a.com/api/users?q=1".data ++ qsuf) ≠ ['/'] ∧
    generateCompleteSessionName
      { method := "GET".data, url := "https://a.com/api/users?q=1".data ++ qsuf,
        headers := [] } =
      generateCompleteSessionName
        { method := "GET".data, url := "https://a.com/api/users?q=1".data,
          headers := [] } := by
  refine ⟨by decide, by decide, by decide, ?_⟩
  exact c1_name_idempotent_under_query_fragment
    { method := "GET".data, url := "https://a.com/api/users?q=1".data, headers := [] }
    (by decide) (by decide) (by decide)


theorem jsize_pos (v : Json) : 1 ≤ jsize v := by
  cases v <;> simp only [jsize] <;> omega

theorem jsize_obj (fs : List (List Char × Json)) :
    jsize (Json.obj fs) = 2 + fs.length + (fs.map (fun f => jsize f.2)).sum := by
  rw [jsize]
  congr 1
  rw [List.attach_map_coe fs (fun f => jsize f.2)]

theorem jsize_arr (xs : List Json) :
    jsize (Json.arr xs) = 2 + xs.length + (xs.map jsize).sum := by
  rw [jsize]
  congr 1
  rw [List.attach_map_coe xs jsize]

theorem jsize_mem_obj (fs : List (List Char × Json)) (k : List Char) (w : Json)
    (h : (k, w) ∈ fs) : jsize w ≤ jsize (Json.obj fs) := by
  rw [jsize_obj]
  have h2 : jsize w ∈ fs.map (fun f => jsize f.2) :=
    List.mem_map.mpr ⟨(k, w), h, rfl⟩
  have := List.single_le_sum (l := fs.map (fun f => jsize f.2))
    (fun x _ => Nat.zero_le x) _ h2
  omega

theorem jsize_mem_arr (xs : List Json) (w : Json) (h : w ∈ xs) :
    jsize w ≤ jsize (Json.arr xs) := by
  rw [jsize_arr]
  have h2 : jsize w ∈ xs.map jsize := List.mem_map.mpr ⟨w, h, rfl⟩
  have := List.single_le_sum (l := xs.map jsize) (fun x _ => Nat.zero_le x) _ h2
  omega

theorem sum_jsize_ge_length (xs : List Json) : xs.length ≤ (xs.map jsize).sum := by
  induction xs with
  | nil => simp
  | cons x t ih =>
      simp only [List.map_cons, List.sum_cons, List.length_cons]
      have := jsize_pos x
      omega

theorem refSet_obj (fs : List (List Char × Json)) :
    refSet (Json.obj fs) =
      (fs.map (fun f =>
        (if f.1 = "$ref".data then {f.2} else ∅) ∪ refSet f.2)).foldr (· ∪ ·) ∅ := by
  rw [refSet]
  congr 1
  rw [List.attach_map_coe fs
    (fun f => (if f.1 = "$ref".data then ({f.2} : Finset Json) else ∅) ∪ refSet f.2)]

theorem refSet_arr (xs : List Json) :
    refSet (Json.arr xs) = (xs.map (fun x => refSet x)).foldr (· ∪ ·) ∅ := by
  rw [refSet]
  congr 1
  rw [List.attach_map_coe xs (fun x => refSet x)]

theorem subset_foldr_union (l : List (Finset Json))
    (s : Finset Json) (h : s ∈ l) : s ⊆ l.foldr (· ∪ ·) ∅ := by
  induction l with
  | nil => simp at h
  | cons a t ih =>
      rcases List.mem_cons.mp h with h | h
      · subst h
        exact Finset.subset_union_left
      · exact (ih h).trans Finset.subset_union_right

theorem mem_foldr_union (l : List (Finset Json))
    (x : Json) (h : x ∈ l.foldr (· ∪ ·) ∅) : ∃ s ∈ l, x ∈ s := by
  induction l with
  | nil => simp at h
  | cons a t ih =>
      rcases Finset.mem_union.mp h with h | h
      · exact ⟨a, List.mem_cons_self a t, h⟩
      · rcases ih h with ⟨s, hs, hx⟩
        exact ⟨s, List.mem_cons_of_mem a hs, hx⟩

theorem refSet_mem_obj (fs : List (List Char × Json)) (k : List Char) (w : Json)
    (h : (k, w) ∈ fs) : refSet w ⊆ refSet (Json.obj fs) := by
  rw [refSet_obj]
  refine Finset.Subset.trans ?_ (subset_foldr_union _
    ((if k = "$ref".data then ({w} : Finset Json) else ∅) ∪ refSet w)
    (List.mem_map.mpr ⟨(k, w), h, rfl⟩))
  exact Finset.subset_union_right

theorem refVal_mem_obj (fs : List (List Char × Json)) (w : Json)
    (h : ("$ref".data, w) ∈ fs) : w ∈ refSet (Json.obj fs) := by
  rw [refSet_obj]
  apply subset_foldr_union _
    ((if ("$ref".data : List Char) = "$ref".data then ({w} : Finset Json) else ∅) ∪ refSet w)
    (List.mem_map.mpr ⟨("$ref".data, w), h, rfl⟩)
  simp

theorem refSet_mem_arr (xs : List Json) (w : Json) (h : w ∈ xs) :
    refSet w ⊆ refSet (Json.arr xs) := by
  rw [refSet_arr]
  exact subset_foldr_union _ _ (List.mem_map.mpr ⟨w, h, rfl⟩)

theorem natToDigits_length (n : Nat) : (natToDigits n).length ≤ n + 1 := by
  rcases n with _ | m
  · decide
  · have h := Nat.toDigitsCore_length 10 (by omega) (m + 2) (m + 1) (m + 1)
      (Nat.lt_pow_self (by omega) (m + 1)) (by omega)
    unfold natToDigits Nat.toDigits
    exact h.trans (by omega)

theorem jsize_mem_obj_lt (fs : List (List Char × Json)) (k : List Char) (w : Json)
    (h : (k, w) ∈ fs) : jsize w < jsize (Json.obj fs) := by
  rw [jsize_obj]
  have h2 : jsize w ∈ fs.map (fun f => jsize f.2) :=
    List.mem_map.mpr ⟨(k, w), h, rfl⟩
  have := List.single_le_sum (l := fs.map (fun f => jsize f.2))
    (fun x _ => Nat.zero_le x) _ h2
  omega

theorem jsize_mem_arr_lt (xs : List Json) (w : Json) (h : w ∈ xs) :
    jsize w < jsize (Json.arr xs) := by
  rw [jsize_arr]
  have h2 : jsize w ∈ xs.map jsize := List.mem_map.mpr ⟨w, h, rfl⟩
  have := List.single_le_sum (l := xs.map jsize) (fun x _ => Nat.zero_le x) _ h2
  omega

theorem getField_bound (v : Json) (k : List Char) (w : Json)
    (h : getField v k = Option.some w) :
    jsize w < jsize v ∧ refSet w ⊆ refSet v := by
  cases v with
  | obj fs =>
      have h2 : Option.map Prod.snd (fs.find? (fun f => f.1 = k)) = Option.some w := h
      rcases hf : fs.find? (fun f => f.1 = k) with _ | p
      · rw [hf] at h2; cases h2
      · rw [hf] at h2
        have hmem := List.mem_of_find?_eq_some hf
        injection h2 with h2
        subst h2
        have : (p.1, p.2) ∈ fs := by simpa using hmem
        exact ⟨jsize_mem_obj_lt fs p.1 p.2 this, refSet_mem_obj fs p.1 p.2 this⟩
  | null => cases h
  | bool b => cases h
  | num r2 => cases h
  | str s => cases h
  | arr xs => cases h

theorem refSet_num (raw : List Char) : refSet (Json.num raw) = ∅ := by rw [refSet]

theorem jsGetProp_bound (v : Json) (k : List Char) (w : Json)
    (h : jsGetProp v k = Option.some w) :
    jsize w ≤ jsize v ∧ refSet w ⊆ refSet v := by
  cases v with
  | obj fs =>
      have h2 : getField (Json.obj fs) k = Option.some w := h
      have := getField_bound _ _ _ h2
      exact ⟨this.1.le, this.2⟩
  | arr xs =>
      have h2 : (if k = "length".data then Option.some (Json.num (natToDigits xs.length))
          else
            match (List.range xs.length).find? (fun i => natToDigits i = k) with
            | Option.some i => xs.get? i
            | Option.none => Option.none) = Option.some w := h
      by_cases hk : k = "length".data
      · rw [if_pos hk] at h2
        injection h2 with h2
        subst h2
        constructor
        · rw [jsize_arr]
          simp only [jsize]
          have := natToDigits_length xs.length
          omega
        · rw [refSet_num]
          exact Finset.empty_subset _
      · rw [if_neg hk] at h2
        rcases hi : (List.range xs.length).find? (fun i => natToDigits i = k) with _ | i
        · rw [hi] at h2; cases h2
        · rw [hi] at h2
          have hmem : w ∈ xs := List.get?_mem h2
          exact ⟨(jsize_mem_arr_lt xs w hmem).le, refSet_mem_arr xs w hmem⟩
  | null => cases h
  | bool b => cases h
  | num r2 => cases h
  | str s => cases h

theorem refSet_mem_jsize_aux :
    ∀ (n : Nat) (v : Json), jsize v ≤ n → ∀ r ∈ refSet v, jsize r ≤ jsize v := by
  intro n
  induction n with
  | zero =>
      intro v hv
      have := jsize_pos v
      omega
  | succ n ih =>
      intro v hv r hr
      cases v with
      | null => rw [refSet] at hr; simp at hr
      | bool b => rw [refSet] at hr; simp at hr
      | num raw => rw [refSet] at hr; simp at hr
      | str s => rw [refSet] at hr; simp at hr
      | arr xs =>
          rw [refSet_arr] at hr
          rcases mem_foldr_union _ _ hr with ⟨s, hs, hrs⟩
          rcases List.mem_map.mp hs with ⟨w, hw, rfl⟩
          have hlt := jsize_mem_arr_lt xs w hw
          have := ih w (by omega) r hrs
          have := jsize_mem_arr xs w hw
          omega
      | obj fs =>
          rw [refSet_obj] at hr
          rcases mem_foldr_union _ _ hr with ⟨s, hs, hrs⟩
          rcases List.mem_map.mp hs with ⟨f, hf, rfl⟩
          have hf2 : (f.1, f.2) ∈ fs := by simpa using hf
          have hlt := jsize_mem_obj_lt fs f.1 f.2 hf2
          rcases Finset.mem_union.mp hrs with hrs | hrs
          · by_cases hk : f.1 = "$ref".data
            · rw [if_pos hk] at hrs
              have : r = f.2 := Finset.mem_singleton.mp hrs
              subst this
              exact hlt.le
            · rw [if_neg hk] at hrs
              simp at hrs
          · have := ih f.2 (by omega) r hrs
            omega

theorem refSet_mem_jsize (v : Json) (r : Json) (h : r ∈ refSet v) :
    jsize r ≤ jsize v :=
  refSet_mem_jsize_aux (jsize v) v le_rfl r h


theorem jsize_null : jsize Json.null = 1 := by simp only [jsize]

theorem jsize_bool (b : Bool) : jsize (Json.bool b) = 1 := by simp only [jsize]

theorem refSet_null : refSet Json.null = ∅ := by rw [refSet]

theorem refSet_str (s : List Char) : refSet (Json.str s) = ∅ := by rw [refSet]

theorem flatten_map_length : ∀ (xs : List Json) (F : Json → List Char)
    (sep : List Char), sep.length ≤ 1 →
    ((∀ x, x ∈ xs → (F x).length ≤ jsize x + 14) →
    (((xs.map F).intersperse sep).flatten).length ≤
      (xs.map jsize).sum + 15 * xs.length) := by
  intro xs F sep hsep
  induction xs with
  | nil => intro h2; simp [List.intersperse]
  | cons a t ih =>
      intro hF
      cases t with
      | nil =>
          have he : ((List.map F [a]).intersperse sep).flatten = F a ++ [] := rfl
          rw [he, List.length_append]
          have := hF a (by simp)
          simp only [List.map_cons, List.map_nil, List.sum_cons, List.sum_nil,
            List.length_cons, List.length_nil]
          omega
      | cons b t2 =>
          have he : ((List.map F (a :: b :: t2)).intersperse sep).flatten =
              F a ++ (sep ++ ((List.map F (b :: t2)).intersperse sep).flatten) := rfl
          rw [he, List.length_append, List.length_append]
          have iht := ih (fun x hx => hF x (List.mem_cons_of_mem a hx))
          have ha := hF a (List.mem_cons_self a _)
          simp only [List.map_cons, List.sum_cons, List.length_cons] at iht ⊢
          omega

theorem jsToString_length (v : Json) : (jsToString v).length ≤ 8 * jsize v := by
  cases v with
  | null =>
      rw [jsize_null]
      have h4 : (jsToString Json.null).length = 4 := rfl
      omega
  | bool b =>
      rw [jsize_bool]
      cases b
      · have h5 : (jsToString (Json.bool false)).length = 5 := rfl
        omega
      · have h4 : (jsToString (Json.bool true)).length = 4 := rfl
        omega
  | num raw =>
      have h : jsToString (Json.num raw) = raw := rfl
      rw [h]
      simp only [jsize]
      omega
  | str s =>
      have h : jsToString (Json.str s) = s := rfl
      rw [h]
      simp only [jsize]
      omega
  | obj fs =>
      rw [jsize_obj]
      have h15 : (jsToString (Json.obj fs)).length = 15 := rfl
      omega
  | arr xs =>
      rw [jsize_arr]
      simp only [jsToString]
      refine le_trans (flatten_map_length xs _ _ ?_ ?_) ?_
      · decide
      · intro x hx
        cases x with
        | null => exact Nat.zero_le _
        | bool b =>
            cases b
            · show 5 ≤ jsize (Json.bool false) + 14
              rw [jsize_bool]; decide
            · show 4 ≤ jsize (Json.bool true) + 14
              rw [jsize_bool]; decide
        | num raw =>
            show raw.length ≤ jsize (Json.num raw) + 14
            simp only [jsize]; omega
        | str s =>
            show s.length ≤ jsize (Json.str s) + 14
            simp only [jsize]; omega
        | obj fs2 =>
            show 15 ≤ jsize (Json.obj fs2) + 14
            have := jsize_pos (Json.obj fs2)
            omega
        | arr xs2 => exact Nat.zero_le _
      · have h3 := sum_jsize_ge_length xs
        omega

theorem jsize_circularPlaceholder (ref : Json) :
    jsize (circularPlaceholder ref) = 34 + (jsToString ref).length := by
  rw [circularPlaceholder, jsize_obj]
  simp only [List.map_cons, List.map_nil, List.sum_cons, List.sum_nil, jsize,
    jsCoerceStr, List.length_append, List.length_cons, List.length_nil]
  omega

theorem refSet_circularPlaceholder (ref : Json) :
    refSet (circularPlaceholder ref) = ∅ := by
  rw [circularPlaceholder, refSet_obj]
  simp only [List.map_cons, List.map_nil, List.foldr_cons, List.foldr_nil]
  rw [if_neg (by decide), if_neg (by decide)]
  simp [refSet_str]

theorem jsTruthyO_some (o : Option Json) (h : jsTruthyO o = true) :
    ∃ w, o = Option.some w := by
  cases o with
  | none => cases h
  | some w => exact ⟨w, rfl⟩

theorem getField_ref_mem (v : Json) (r : Json)
    (h : getField v "$ref".data = Option.some r) : r ∈ refSet v := by
  cases v with
  | obj fs =>
      have h2 : Option.map Prod.snd (fs.find? (fun f => f.1 = "$ref".data)) =
          Option.some r := h
      rcases hf : fs.find? (fun f => f.1 = "$ref".data) with _ | p
      · rw [hf] at h2; cases h2
      · rw [hf] at h2
        injection h2 with h2
        have hpred := List.find?_some hf
        have hp1 : p.1 = "$ref".data := by simpa using hpred
        have hmem := List.mem_of_find?_eq_some hf
        subst h2
        apply refVal_mem_obj
        rw [← hp1]
        exact hmem
  | null => cases h
  | bool b => cases h
  | num raw => cases h
  | str s => cases h
  | arr xs => cases h

theorem walkPath_bound (spec : Json) : ∀ (path : List (List Char)) (cur : Json),
    jsize cur ≤ jsize spec → refSet cur ⊆ refSet spec →
    jsize (walkPath spec path cur) ≤ jsize spec ∧
      refSet (walkPath spec path cur) ⊆ refSet spec := by
  intro path
  induction path with
  | nil => intro cur h1 h2; rw [walkPath]; exact ⟨h1, h2⟩
  | cons seg rest ih =>
      intro cur h1 h2
      rw [walkPath]
      by_cases hg : jsTruthy cur ∧ jsIsObjectType cur ∧ jsHasProp cur seg
      · rw [if_pos hg]
        rcases hp : jsGetProp cur seg with _ | w
        · rw [Option.getD_none]
          refine ih Json.null ?_ ?_
          · rw [jsize_null]; exact jsize_pos spec
          · rw [refSet_null]; exact Finset.empty_subset _
        · rw [Option.getD_some]
          have hb := jsGetProp_bound cur seg w hp
          exact ih w (le_trans hb.1 h1) (hb.2.trans h2)
      · rw [if_neg hg]
        refine ⟨?_, ?_⟩
        · rw [jsize_null]; exact jsize_pos spec
        · rw [refSet_null]; exact Finset.empty_subset _

theorem jsGetPropD_bound (u : Json) (k : List Char) :
    jsize ((jsGetProp u k).getD Json.null) ≤ jsize u ∧
      refSet ((jsGetProp u k).getD Json.null) ⊆ refSet u := by
  rcases hp : jsGetProp u k with _ | w
  · rw [Option.getD_none]
    refine ⟨?_, ?_⟩
    · rw [jsize_null]; exact jsize_pos u
    · rw [refSet_null]; exact Finset.empty_subset _
  · rw [Option.getD_some]
    exact jsGetProp_bound u k w hp

theorem jsEntries_bound (u : Json) (k : List Char) (v : Json)
    (h : (k, v) ∈ jsEntries u) :
    jsize v ≤ jsize u ∧ refSet v ⊆ refSet u := by
  cases u with
  | obj fs =>
      have h2 : (k, v) ∈ fs := h
      exact ⟨jsize_mem_obj fs k v h2, refSet_mem_obj fs k v h2⟩
  | arr xs =>
      have h2 : (k, v) ∈ xs.enum.map (fun p => (natToDigits p.1, p.2)) := h
      rcases List.mem_map.mp h2 with ⟨p, hp, heq⟩
      have hv : p.2 = v := congrArg Prod.snd heq
      have hmem : p.2 ∈ xs := List.snd_mem_of_mem_enum hp
      rw [hv] at hmem
      exact ⟨(jsize_mem_arr_lt xs v hmem).le, refSet_mem_arr xs v hmem⟩
  | str s =>
      have h2 : (k, v) ∈ s.enum.map (fun p => (natToDigits p.1, Json.str [p.2])) := h
      rcases List.mem_map.mp h2 with ⟨p, hp, heq⟩
      have hv : Json.str [p.2] = v := congrArg Prod.snd heq
      have hlen : 0 < s.length := by
        have := List.length_pos_of_mem hp
        simpa [List.enum_length] using this
      refine ⟨?_, ?_⟩
      · rw [← hv]
        simp only [jsize, List.length_cons, List.length_nil]
        omega
      · rw [← hv, refSet_str]
        exact Finset.empty_subset _
  | null => cases h
  | bool b => cases h
  | num raw => cases h

theorem jsize_objtype_ge2 (s : Json) (h1 : jsTruthy s = true)
    (h2 : jsIsObjectType s = true) : 2 ≤ jsize s := by
  cases s with
  | null => cases h1
  | bool b => cases h2
  | num raw => cases h2
  | str st => cases h2
  | arr xs => rw [jsize_arr]; omega
  | obj fs => rw [jsize_obj]; omega

theorem refsLeft_mono (s1 s2 : Json) (spec : Json) (vis : List Json)
    (h : refSet s1 ⊆ refSet spec ∪ refSet s2) :
    refsLeft s1 spec vis ≤ refsLeft s2 spec vis := by
  unfold refsLeft
  apply Finset.card_le_card
  intro x hx
  rw [Finset.mem_filter] at hx ⊢
  refine ⟨?_, hx.2⟩
  rcases Finset.mem_union.mp hx.1 with h1 | h1
  · exact Finset.mem_union_left _ h1
  · exact h h1

theorem refsLeft_anti (s spec : Json) (v1 v2 : List Json) (h : v1 ⊆ v2) :
    refsLeft s spec v2 ≤ refsLeft s spec v1 := by
  unfold refsLeft
  apply Finset.card_le_card
  intro x hx
  rw [Finset.mem_filter] at hx ⊢
  exact ⟨hx.1, fun hm => hx.2 (h hm)⟩

theorem genFuelBound_anti (s spec : Json) (v1 v2 : List Json) (h : v1 ⊆ v2) :
    genFuelBound s spec v2 ≤ genFuelBound s spec v1 := by
  unfold genFuelBound
  have hr : refsLeft s spec v2 + 1 ≤ refsLeft s spec v1 + 1 := by
    have := refsLeft_anti s spec v1 v2 h
    omega
  have hm := Nat.mul_le_mul_right (9 * jsize spec + 60) hr
  omega

theorem refsLeft_ref_step (schema spec resolved : Json) (visited : List Json)
    (r : Json) (hr : r ∈ refSet schema) (hnv : r ∉ visited)
    (hres : refSet resolved ⊆ refSet spec) :
    refsLeft resolved spec (r :: visited) + 1 ≤ refsLeft schema spec visited := by
  unfold refsLeft
  have hrmem : r ∈ (refSet spec ∪ refSet schema).filter (fun x => x ∉ visited) :=
    Finset.mem_filter.mpr ⟨Finset.mem_union_right _ hr, hnv⟩
  have hsub : (refSet spec ∪ refSet resolved).filter (fun x => x ∉ r :: visited) ⊆
      ((refSet spec ∪ refSet schema).filter (fun x => x ∉ visited)).erase r := by
    intro x hx
    rw [Finset.mem_filter] at hx
    have hx2 : x ∉ r :: visited := hx.2
    rw [List.mem_cons] at hx2
    push_neg at hx2
    apply Finset.mem_erase.mpr
    refine ⟨hx2.1, Finset.mem_filter.mpr ⟨?_, hx2.2⟩⟩
    rcases Finset.mem_union.mp hx.1 with h1 | h1
    · exact Finset.mem_union_left _ h1
    · exact Finset.mem_union_left _ (hres h1)
  have hc := Finset.card_le_card hsub
  rw [Finset.card_erase_of_mem hrmem] at hc
  have hpos : 0 < ((refSet spec ∪ refSet schema).filter (fun x => x ∉ visited)).card :=
    Finset.card_pos.mpr ⟨r, hrmem⟩
  omega

theorem genFuelBound_ref_step {R2 R S js jr fuel : Nat}
    (hstep : R2 + 1 ≤ R) (hjr : jr ≤ 9 * S + 50)
    (hB : (R + 1) * (9 * S + 60) + js + 1 ≤ fuel + 1) :
    (R2 + 1) * (9 * S + 60) + jr + 1 ≤ fuel := by
  have h2 : R2 + 2 ≤ R + 1 := by omega
  have hm := Nat.mul_le_mul_right (9 * S + 60) h2
  have h3 : (R2 + 2) * (9 * S + 60) =
      (R2 + 1) * (9 * S + 60) + (9 * S + 60) := by ring
  linarith

theorem genFuelBound_sub_step {Rw R S jw js fuel : Nat}
    (hR : Rw ≤ R) (hj : jw + 1 ≤ js)
    (hB : (R + 1) * (9 * S + 60) + js + 1 ≤ fuel + 1) :
    (Rw + 1) * (9 * S + 60) + jw + 1 ≤ fuel := by
  have h2 : Rw + 1 ≤ R + 1 := by omega
  have hm := Nat.mul_le_mul_right (9 * S + 60) h2
  linarith

theorem genFuelBound_resolve_fuel {R S js fuel : Nat}
    (hB : (R + 1) * (9 * S + 60) + js + 1 ≤ fuel + 1) :
    R + 1 ≤ fuel := by
  have hm := Nat.mul_le_mul_left (R + 1) (show 60 ≤ 9 * S + 60 by omega)
  have h3 : (R + 1) * 60 = 60 * R + 60 := by ring
  linarith

theorem resolve_no_fuelOut : ∀ (n : Nat) (ref spec : Json) (visited : List Json),
    ((insert ref (refSet spec)).filter (fun x => x ∉ visited)).card + 1 ≤ n →
    resolveSchemaRefF n ref spec visited ≠ Option.none := by
  intro n
  induction n with
  | zero =>
      intro ref spec visited h
      exact absurd h (by omega)
  | succ fuel ih =>
      intro ref spec visited h
      simp only [resolveSchemaRefF]
      split
      · exact fun hc => Option.noConfusion hc
      · rename_i hnv
        split
        · rename_i s
          split
          · exact fun hc => Option.noConfusion hc
          · split
            · rename_i hpre hguard
              obtain ⟨w, hw⟩ := jsTruthyO_some _ hguard.2.2
              rw [hw, Option.getD_some]
              apply ih
              have hwmem : w ∈ refSet spec :=
                (walkPath_bound spec _ spec le_rfl (Finset.Subset.refl _)).2
                  (getField_ref_mem _ w hw)
              have hins : insert w (refSet spec) = refSet spec :=
                Finset.insert_eq_self.mpr hwmem
              rw [hins]
              have hrefA : Json.str s ∈
                  (insert (Json.str s) (refSet spec)).filter (fun x => x ∉ visited) :=
                Finset.mem_filter.mpr ⟨Finset.mem_insert_self _ _, hnv⟩
              have hsub : (refSet spec).filter (fun x => x ∉ Json.str s :: visited) ⊆
                  ((insert (Json.str s) (refSet spec)).filter
                    (fun x => x ∉ visited)).erase (Json.str s) := by
                intro x hx
                rw [Finset.mem_filter] at hx
                have hx2 := hx.2
                rw [List.mem_cons] at hx2
                push_neg at hx2
                exact Finset.mem_erase.mpr ⟨hx2.1,
                  Finset.mem_filter.mpr ⟨Finset.mem_insert_of_mem hx.1, hx2.2⟩⟩
              have hc := Finset.card_le_card hsub
              rw [Finset.card_erase_of_mem hrefA] at hc
              have hpos : 0 < ((insert (Json.str s) (refSet spec)).filter
                  (fun x => x ∉ visited)).card :=
                Finset.card_pos.mpr ⟨_, hrefA⟩
              omega
            · exact fun hc => Option.noConfusion hc
        · exact fun hc => Option.noConfusion hc

theorem resolve_ok_bound : ∀ (n : Nat) (ref spec : Json) (visited : List Json)
    (v : Json),
    resolveSchemaRefF n ref spec visited = Option.some (Except.ok v) →
    (jsize v ≤ 9 * jsize spec + 50 ∧ refSet v ⊆ refSet spec) ∨
      (ref ∈ visited ∧ v = circularPlaceholder ref) := by
  intro n
  induction n with
  | zero =>
      intro ref spec visited v h
      rw [resolveSchemaRefF] at h
      cases h
  | succ fuel ih =>
      intro ref spec visited v h
      simp only [resolveSchemaRefF] at h
      split at h
      · rename_i hv
        injection h with h
        injection h with h
        exact Or.inr ⟨hv, h.symm⟩
      · rename_i hnv
        split at h
        · rename_i s
          split at h
          · injection h with h
            injection h with h
            refine Or.inl ?_
            rw [← h]
            refine ⟨?_, ?_⟩
            · rw [jsize_null]
              omega
            · rw [refSet_null]
              exact Finset.empty_subset _
          · split at h
            · rename_i hpre hguard
              obtain ⟨w, hw⟩ := jsTruthyO_some _ hguard.2.2
              rw [hw, Option.getD_some] at h
              rcases ih _ _ _ _ h with hL | hR
              · exact Or.inl hL
              · have hwmem : w ∈ refSet spec :=
                  (walkPath_bound spec _ spec le_rfl (Finset.Subset.refl _)).2
                    (getField_ref_mem _ w hw)
                refine Or.inl ⟨?_, ?_⟩
                · rw [hR.2, jsize_circularPlaceholder]
                  have h1 := jsToString_length w
                  have h2 := refSet_mem_jsize spec w hwmem
                  omega
                · rw [hR.2, refSet_circularPlaceholder]
                  exact Finset.empty_subset _
            · rename_i hpre hguard
              injection h with h
              injection h with h
              refine Or.inl ?_
              rw [← h]
              have hb := walkPath_bound spec (List.splitOn '/' (List.drop 2 s)) spec
                le_rfl (Finset.Subset.refl _)
              exact ⟨by omega, hb.2⟩
        · injection h with h
          cases h

theorem genProps_mono (n : Nat) (spec : Json)
    (hgen : ∀ s vis v vis2,
      generateExampleFromSchemaF n s spec vis = GenRes.ok v vis2 → vis ⊆ vis2) :
    ∀ (props : List (List Char × Json)) (vis : List Json)
      (acc : List (List Char × Json)) (v : Json) (vis2 : List Json),
    genPropsF n props spec vis acc = GenRes.ok v vis2 → vis ⊆ vis2 := by
  intro props
  induction props with
  | nil =>
      intro vis acc v vis2 h
      rw [genPropsF] at h
      injection h with h1 h2
      subst h2
      exact fun x hx => hx
  | cons p rest ihp =>
      obtain ⟨k, pv⟩ := p
      intro vis acc v vis2 h
      rw [genPropsF] at h
      split at h
      · cases h
      · cases h
      · rename_i ex visM hg
        split at h
        · exact fun x hx => ihp _ _ _ _ h (hgen _ _ _ _ hg hx)
        · exact fun x hx => ihp _ _ _ _ h (hgen _ _ _ _ hg hx)

theorem genRequired_mono (n : Nat) (properties : Json) (pt : Bool) (spec : Json)
    (hgen : ∀ s vis v vis2,
      generateExampleFromSchemaF n s spec vis = GenRes.ok v vis2 → vis ⊆ vis2) :
    ∀ (reqs : List Json) (vis : List Json)
      (acc : List (List Char × Json)) (v : Json) (vis2 : List Json),
    genRequiredF n reqs properties pt spec vis acc = GenRes.ok v vis2 → vis ⊆ vis2 := by
  intro reqs
  induction reqs with
  | nil =>
      intro vis acc v vis2 h
      rw [genRequiredF] at h
      injection h with h1 h2
      subst h2
      exact fun x hx => hx
  | cons rq rest ihp =>
      intro vis acc v vis2 h
      rw [genRequiredF] at h
      split at h
      · split at h
        · cases h
        · cases h
        · rename_i ex visM hg
          split at h
          · exact fun x hx => ihp _ _ _ _ h (hgen _ _ _ _ hg hx)
          · exact fun x hx => ihp _ _ _ _ h (hgen _ _ _ _ hg hx)
      · exact fun x hx => ihp _ _ _ _ h hx

theorem gen_mono : ∀ (n : Nat) (s spec : Json) (vis : List Json) (v : Json)
    (vis2 : List Json),
    generateExampleFromSchemaF n s spec vis = GenRes.ok v vis2 → vis ⊆ vis2 := by
  intro n
  induction n with
  | zero =>
      intro s spec vis v vis2 h
      rw [generateExampleFromSchemaF] at h
      cases h
  | succ fuel ih =>
      intro s spec vis v vis2 h
      rw [generateExampleFromSchemaF] at h
      split at h
      · injection h with h1 h2; subst h2; exact fun x hx => hx
      · split at h
        · split at h
          · injection h with h1 h2; subst h2; exact fun x hx => hx
          · split at h
            · cases h
            · cases h
            · split at h
              · have := ih _ _ _ _ _ h
                exact fun x hx => this (List.mem_cons_of_mem _ hx)
              · injection h with h1 h2; subst h2; exact fun x hx => hx
        · split at h
          · injection h with h1 h2; subst h2; exact fun x hx => hx
          · split at h
            · -- type present as string ty
              split at h
              · -- string
                injection h with h1 h2; subst h2; exact fun x hx => hx
              · split at h
                · -- number/integer
                  injection h with h1 h2; subst h2; exact fun x hx => hx
                · split at h
                  · -- boolean
                    injection h with h1 h2; subst h2; exact fun x hx => hx
                  · split at h
                    · -- array
                      split at h
                      · -- items truthy: match gen fuel items
                        split at h
                        · cases h
                        · cases h
                        · rename_i item visM hg
                          split at h
                          · injection h with h1 h2; subst h2
                            exact fun x hx => ih _ _ _ _ _ hg hx
                          · injection h with h1 h2; subst h2
                            exact fun x hx => ih _ _ _ _ _ hg hx
                      · injection h with h1 h2; subst h2; exact fun x hx => hx
                    · split at h
                      · -- object
                        split at h
                        · cases h
                        · cases h
                        · rename_i built visM hgp
                          split at h
                          · cases h
                          · cases h
                          · rename_i final visN hgr
                            have hm1 := genProps_mono fuel spec (fun s2 => ih s2 spec) _ _ _ _ _ hgp
                            have hm2 := genRequired_mono fuel _ _ spec (fun s2 => ih s2 spec) _ _ _ _ _ hgr
                            split at h
                            · split at h
                              · injection h with h1 h2; subst h2
                                exact fun x hx => hm2 (hm1 hx)
                              · injection h with h1 h2; subst h2
                                exact fun x hx => hm2 (hm1 hx)
                            · injection h with h1 h2; subst h2
                              exact fun x hx => hm2 (hm1 hx)
                      · injection h with h1 h2; subst h2; exact fun x hx => hx
            · injection h with h1 h2; subst h2; exact fun x hx => hx

theorem genProps_no_fuelOut (n : Nat) (spec : Json)
    (hgen : ∀ s vis, genFuelBound s spec vis ≤ n →
      generateExampleFromSchemaF n s spec vis ≠ GenRes.fuelOut)
    (hmono : ∀ s vis v vis2,
      generateExampleFromSchemaF n s spec vis = GenRes.ok v vis2 → vis ⊆ vis2) :
    ∀ (props : List (List Char × Json)) (vis : List Json)
      (acc : List (List Char × Json)),
    (∀ p ∈ props, genFuelBound p.2 spec vis ≤ n) →
    genPropsF n props spec vis acc ≠ GenRes.fuelOut := by
  intro props
  induction props with
  | nil =>
      intro vis acc hall
      rw [genPropsF]
      exact fun hc => GenRes.noConfusion hc
  | cons p rest ihp =>
      obtain ⟨k, pv⟩ := p
      intro vis acc hall
      rw [genPropsF]
      split
      · rename_i hg
        exact absurd hg (hgen pv vis (hall (k, pv) (List.mem_cons_self _ _)))
      · exact fun hc => GenRes.noConfusion hc
      · rename_i ex visM hg
        have hsub := hmono _ _ _ _ hg
        have hrest : ∀ p ∈ rest, genFuelBound p.2 spec visM ≤ n := fun p hp =>
          le_trans (genFuelBound_anti p.2 spec vis visM hsub)
            (hall p (List.mem_cons_of_mem _ hp))
        split
        · exact ihp visM _ hrest
        · exact ihp visM _ hrest

theorem genRequired_no_fuelOut (n : Nat) (properties : Json) (pt : Bool)
    (spec : Json)
    (hgen : ∀ s vis, genFuelBound s spec vis ≤ n →
      generateExampleFromSchemaF n s spec vis ≠ GenRes.fuelOut)
    (hmono : ∀ s vis v vis2,
      generateExampleFromSchemaF n s spec vis = GenRes.ok v vis2 → vis ⊆ vis2) :
    ∀ (reqs : List Json) (vis : List Json) (acc : List (List Char × Json)),
    (∀ rq ∈ reqs,
      genFuelBound ((jsGetProp properties (jsToString rq)).getD Json.null)
        spec vis ≤ n) →
    genRequiredF n reqs properties pt spec vis acc ≠ GenRes.fuelOut := by
  intro reqs
  induction reqs with
  | nil =>
      intro vis acc hall
      rw [genRequiredF]
      exact fun hc => GenRes.noConfusion hc
  | cons rq rest ihp =>
      intro vis acc hall
      rw [genRequiredF]
      split
      · split
        · rename_i hg
          exact absurd hg (hgen _ vis (hall rq (List.mem_cons_self _ _)))
        · exact fun hc => GenRes.noConfusion hc
        · rename_i ex visM hg
          have hsub := hmono _ _ _ _ hg
          have hrest : ∀ r2 ∈ rest,
              genFuelBound ((jsGetProp properties (jsToString r2)).getD Json.null)
                spec visM ≤ n := fun r2 hp =>
            le_trans (genFuelBound_anti _ spec vis visM hsub)
              (hall r2 (List.mem_cons_of_mem _ hp))
          split
          · exact ihp visM _ hrest
          · exact ihp visM _ hrest
      · exact ihp vis acc (fun r2 hp => hall r2 (List.mem_cons_of_mem _ hp))

theorem props_sub_bound (s : Json) (key : List Char) (h2 : 2 ≤ jsize s) :
    jsize ((jsGetProp ((getField s "properties".data).getD Json.null) key).getD
      Json.null) + 1 ≤ jsize s ∧
    refSet ((jsGetProp ((getField s "properties".data).getD Json.null) key).getD
      Json.null) ⊆ refSet s := by
  rcases hPf : getField s "properties".data with _ | P
  · rw [Option.getD_none]
    have hjn : jsGetProp Json.null key = Option.none := rfl
    rw [hjn, Option.getD_none]
    constructor
    · rw [jsize_null]; omega
    · rw [refSet_null]; exact Finset.empty_subset _
  · rw [Option.getD_some]
    have hP := getField_bound s "properties".data P hPf
    have hgd := jsGetPropD_bound P key
    have hlt := hP.1
    have hle := hgd.1
    exact ⟨by omega, hgd.2.trans hP.2⟩

theorem gen_fuel : ∀ (n : Nat) (s spec : Json) (visited : List Json),
    genFuelBound s spec visited ≤ n →
    generateExampleFromSchemaF n s spec visited ≠ GenRes.fuelOut := by
  intro n
  induction n with
  | zero =>
      intro s spec visited hB
      exfalso
      unfold genFuelBound at hB
      exact Nat.not_succ_le_zero _ hB
  | succ fuel ih =>
      intro s spec visited hB
      rw [generateExampleFromSchemaF]
      split
      · exact fun hc => GenRes.noConfusion hc
      · rename_i h1
        have h1' := not_not.mp h1
        split
        · -- $ref truthy
          rename_i hr
          obtain ⟨w, hw⟩ := jsTruthyO_some _ hr
          rw [hw, Option.getD_some]
          have hrm : w ∈ refSet s := getField_ref_mem s w hw
          split
          · exact fun hc => GenRes.noConfusion hc
          · rename_i hnv
            have hcard : ((insert w (refSet spec)).filter
                (fun x => x ∉ visited)).card + 1 ≤ fuel := by
              have hsub : insert w (refSet spec) ⊆ refSet spec ∪ refSet s := by
                intro x hx
                rcases Finset.mem_insert.mp hx with hx1 | hx1
                · subst hx1; exact Finset.mem_union_right _ hrm
                · exact Finset.mem_union_left _ hx1
              have hc2 := Finset.card_le_card
                (Finset.filter_subset_filter (fun x => x ∉ visited) hsub)
              have hRf : refsLeft s spec visited + 1 ≤ fuel := by
                unfold genFuelBound at hB
                exact genFuelBound_resolve_fuel hB
              unfold refsLeft at hRf
              omega
            split
            · rename_i heq
              exact absurd heq (resolve_no_fuelOut fuel w spec visited hcard)
            · exact fun hc => GenRes.noConfusion hc
            · rename_i resolved heq
              split
              · -- truthy resolved: recursive call
                apply ih
                rcases resolve_ok_bound fuel w spec visited resolved heq with
                  ⟨hjr, hrs⟩ | ⟨hin, _⟩
                · have hstep := refsLeft_ref_step s spec resolved visited w hrm
                    hnv hrs
                  unfold genFuelBound at hB ⊢
                  exact genFuelBound_ref_step hstep hjr hB
                · exact absurd hin hnv
              · exact fun hc => GenRes.noConfusion hc
        · -- no $ref
          split
          · exact fun hc => GenRes.noConfusion hc
          · split
            · -- type string ty
              rename_i ty hty
              split
              · exact fun hc => GenRes.noConfusion hc
              · split
                · exact fun hc => GenRes.noConfusion hc
                · split
                  · exact fun hc => GenRes.noConfusion hc
                  · split
                    · -- array
                      split
                      · rename_i hit
                        obtain ⟨wI, hwI⟩ := jsTruthyO_some _ hit
                        rw [hwI, Option.getD_some]
                        split
                        · rename_i heqI
                          exfalso
                          have hbI := getField_bound s "items".data wI hwI
                          have hRI : refsLeft wI spec visited ≤
                              refsLeft s spec visited :=
                            refsLeft_mono wI s spec visited
                              (fun x hx => Finset.mem_union_right _ (hbI.2 hx))
                          have hlt := hbI.1
                          have hbound : genFuelBound wI spec visited ≤ fuel := by
                            unfold genFuelBound
                            unfold genFuelBound at hB
                            exact genFuelBound_sub_step hRI (by omega) hB
                          exact ih wI spec visited hbound heqI
                        · exact fun hc => GenRes.noConfusion hc
                        · split
                          · exact fun hc => GenRes.noConfusion hc
                          · exact fun hc => GenRes.noConfusion hc
                      · exact fun hc => GenRes.noConfusion hc
                    · split
                      · -- object
                        have hs2 : 2 ≤ jsize s :=
                          jsize_objtype_ge2 s h1'.1 h1'.2
                        have hgen2 : ∀ s2 vis, genFuelBound s2 spec vis ≤ fuel →
                            generateExampleFromSchemaF fuel s2 spec vis ≠
                              GenRes.fuelOut := fun s2 vis => ih s2 spec vis
                        have hmono2 : ∀ s2 vis v vis2,
                            generateExampleFromSchemaF fuel s2 spec vis =
                              GenRes.ok v vis2 → vis ⊆ vis2 :=
                          fun s2 => gen_mono fuel s2 spec
                        have hallP : ∀ p ∈ (if jsTruthyO
                              (getField s "properties".data) = true then
                              jsEntries ((getField s "properties".data).getD
                                Json.null)
                            else []),
                            genFuelBound p.2 spec visited ≤ fuel := by
                          intro p hp
                          split at hp
                          · rename_i hPt
                            obtain ⟨P, hP⟩ := jsTruthyO_some _ hPt
                            rw [hP, Option.getD_some] at hp
                            obtain ⟨k2, v2⟩ := p
                            show genFuelBound v2 spec visited ≤ fuel
                            have hE := jsEntries_bound P k2 v2 hp
                            have hPb := getField_bound s "properties".data P hP
                            have hR2 : refsLeft v2 spec visited ≤
                                refsLeft s spec visited :=
                              refsLeft_mono v2 s spec visited
                                (fun x hx => Finset.mem_union_right _
                                  (hPb.2 (hE.2 hx)))
                            have hlt := hPb.1
                            have hle := hE.1
                            unfold genFuelBound
                            unfold genFuelBound at hB
                            exact genFuelBound_sub_step hR2 (by omega) hB
                          · cases hp
                        split
                        · rename_i heqP
                          exact absurd heqP (genProps_no_fuelOut fuel spec
                            hgen2 hmono2 _ visited [] hallP)
                        · exact fun hc => GenRes.noConfusion hc
                        · rename_i built visM heqP
                          have hvm : visited ⊆ visM :=
                            genProps_mono fuel spec
                              (fun s2 => gen_mono fuel s2 spec) _ _ _ _ _ heqP
                          have hallR : ∀ rq : Json,
                              genFuelBound ((jsGetProp
                                ((getField s "properties".data).getD Json.null)
                                (jsToString rq)).getD Json.null) spec visM ≤
                                fuel := by
                            intro rq
                            refine le_trans
                              (genFuelBound_anti _ spec visited visM hvm) ?_
                            have hpb := props_sub_bound s (jsToString rq) hs2
                            have hR2 : refsLeft ((jsGetProp
                                ((getField s "properties".data).getD Json.null)
                                (jsToString rq)).getD Json.null) spec visited ≤
                                refsLeft s spec visited :=
                              refsLeft_mono _ s spec visited
                                (fun x hx => Finset.mem_union_right _
                                  (hpb.2 hx))
                            have hle := hpb.1
                            unfold genFuelBound
                            unfold genFuelBound at hB
                            exact genFuelBound_sub_step hR2 (by omega) hB
                          split
                          · rename_i heqR
                            exact absurd heqR (genRequired_no_fuelOut fuel _ _
                              spec hgen2 hmono2 _ visM _
                              (fun rq hrq => hallR rq))
                          · exact fun hc => GenRes.noConfusion hc
                          · rename_i final visN heqR
                            split
                            all_goals try exact fun hc => GenRes.noConfusion hc
                            all_goals split
                            all_goals exact fun hc => GenRes.noConfusion hc
                      · exact fun hc => GenRes.noConfusion hc
            · exact fun hc => GenRes.noConfusion hc

/-- C9: `generateExampleFromSchema` terminates on every input: running the
fuel-indexed embedding with the computable bound `genFuelBound` (linear in
the number of unvisited `$ref` values, with a per-ref budget sized by the
spec) never exhausts the fuel, which models the guarantee that the
visited-set circular-reference protection prevents infinite recursion for
any schema/spec, including circular `$ref` chains. -/
theorem c9_generateExample_terminates (schema spec : Json)
    (visited : List Json) :
    generateExampleFromSchemaF (genFuelBound schema spec visited) schema spec
      visited ≠ GenRes.fuelOut :=
  gen_fuel (genFuelBound schema spec visited) schema spec visited le_rfl
